import Mathlib

/-!
Verification of the pydigitemp 1-Wire protocol stack against its design
specification.  The Python sources (`digitemp/utils.py`, `digitemp/master.py`,
`digitemp/device/termometer.py`, `digitemp/device/factories.py`) are shallowly
embedded below: bytes are `Nat` values below 256, bit values are `Nat` values
0/1 exactly as in the Python lists of int bits, fallible operations return
`Option` or `Except`, and the UART/1-Wire bus is modelled as an explicit
simulated-device state.
-/

namespace Digitemp

open List

/-- Error kinds of `digitemp/exceptions.py` (plus the `AdapterError` kind that
the package raises from `master.py`).  `fuelOut` is an artifact of bounding the
search work-list loop; the correctness theorems show it is never produced on
the inputs they cover. -/
inductive OWError where
  | device : String → OWError
  | adapter : String → OWError
  | crc : String → OWError
  | format : String → OWError
  | fuelOut : OWError
deriving DecidableEq

deriving instance DecidableEq for Except

/-- Message carried by an error, as Python `str(e)` would render it. -/
def OWError.msg : OWError → String
  | .device s => s
  | .adapter s => s
  | .crc s => s
  | .format s => s
  | .fuelOut => "fuel exhausted"

/-! ## `digitemp/utils.py` : CRC8 and the ROM code codec -/

/-- One iteration of the inner loop of `crc8` (utils.py lines 53-58):
`mix = (crc ^ byte) & 0x01; crc >>= 1; if mix: crc ^= 0x8c; byte >>= 1`. -/
def crc8_bit (s : Nat × Nat) : Nat × Nat :=
  let mix := (s.1 ^^^ s.2) &&& 0x01
  let crc := s.1 >>> 1
  let crc := if mix ≠ 0 then crc ^^^ 0x8c else crc
  (crc, s.2 >>> 1)

/-- The 8-fold iteration `for i in range(8)` of the inner loop of `crc8`. -/
def crc8_bits : Nat → Nat × Nat → Nat × Nat
  | 0, s => s
  | n + 1, s => crc8_bits n (crc8_bit s)

/-- `crc8(data)` from utils.py: fold the per-byte inner loop over the input
starting from `crc = 0x00`. -/
def crc8 (data : List Nat) : Nat :=
  data.foldl (fun crc byte => (crc8_bits 8 (crc, byte)).1) 0x00

/-- Reference Dallas/Maxim CRC-8 bit step, written from the spec's words
(spec 4.1): XOR the CRC's low bit with the current data bit; shift the CRC
right by one; if the XOR result was 1, XOR the CRC with 0x8C. -/
def crc8_ref_bit (s : Nat × Nat) : Nat × Nat :=
  let mix := (s.1 &&& 0x01) ^^^ (s.2 &&& 0x01)
  let crc := s.1 >>> 1
  let crc := if mix = 1 then crc ^^^ 0x8c else crc
  (crc, s.2 >>> 1)

/-- Eight applications of the reference bit step to one byte. -/
def crc8_ref_bits : Nat → Nat × Nat → Nat × Nat
  | 0, s => s
  | n + 1, s => crc8_ref_bits n (crc8_ref_bit s)

/-- Reference Dallas/Maxim CRC-8, written from the spec's words: initial CRC
0, each byte processed least-significant bit first by `crc8_ref_bit`. -/
def crc8_ref (data : List Nat) : Nat :=
  data.foldl (fun crc byte => (crc8_ref_bits 8 (crc, byte)).1) 0x00

/-- Hex-digit test used to model Python's `bytes.fromhex`: `0`-`9`, `a`-`f`,
`A`-`F` (stated on code points). -/
def isHexDigit (c : Char) : Bool :=
  (48 ≤ c.toNat && c.toNat ≤ 57) || (97 ≤ c.toNat && c.toNat ≤ 102) ||
    (65 ≤ c.toNat && c.toNat ≤ 70)

/-- Numeric value of a hex digit, as `bytes.fromhex` decodes it. -/
def hexVal (c : Char) : Nat :=
  if c.toNat ≤ 57 then c.toNat - 48
  else if 97 ≤ c.toNat then c.toNat - 87
  else c.toNat - 55

/-- ASCII whitespace, which Python 3's `bytes.fromhex` skips between bytes:
space, tab, newline, carriage return, vertical tab, form feed. -/
def isPyWs (c : Char) : Bool :=
  c.toNat = 32 || c.toNat = 9 || c.toNat = 10 || c.toNat = 13 ||
    c.toNat = 11 || c.toNat = 12

/-- Model of Python 3 `bytes.fromhex` (utils.py `fromhex`, PY3 branch): skip
ASCII whitespace between bytes; each byte is two immediately adjacent hex
digits; anything else raises `ValueError` (modelled as `none`). -/
def fromhexChars : List Char → Option (List Nat)
  | [] => some []
  | c :: cs =>
    if isPyWs c then fromhexChars cs
    else if isHexDigit c then
      match cs with
      | [] => none
      | c2 :: cs2 =>
        if isHexDigit c2 then
          (fromhexChars cs2).map (fun bs => (hexVal c * 16 + hexVal c2) :: bs)
        else none
    else none

/-- `str2rom(string)` from utils.py: `fromhex(string)`. -/
def str2rom (s : String) : Option (List Nat) :=
  fromhexChars s.data

/-- Uppercase hex digit character for a value below 16, as produced by the
Python format `'%02X'`. -/
def hexDigitU (n : Nat) : Char :=
  if n < 10 then Char.ofNat (48 + n) else Char.ofNat (55 + n)

/-- The two characters `'%02X' % b` for a byte `b < 256`. -/
def byteHexU (b : Nat) : List Char :=
  [hexDigitU (b / 16), hexDigitU (b % 16)]

/-- `rom2str(rom_code)` from utils.py: concatenation of `'%02X' % i` over the
bytes. -/
def rom2str (rom : List Nat) : String :=
  String.mk (rom.flatMap byteHexU)

/-- The inner loop of `rom2bits` for one byte: `for n in range(8):
bits.append(byte % 2); byte >>= 1`. -/
def byteBits : Nat → Nat → List Nat
  | 0, _ => []
  | n + 1, b => b % 2 :: byteBits n (b >>> 1)

/-- Bit expansion of a byte list, least-significant bit of each byte first
(the body of `rom2bits` after its length check). -/
def rom2bitsCore (rom : List Nat) : List Nat :=
  rom.flatMap (byteBits 8)

/-- `rom2bits(rom_code)` from utils.py: raises `ValueError` (modelled `none`)
unless the input has exactly 8 bytes. -/
def rom2bits (rom : List Nat) : Option (List Nat) :=
  if rom.length ≠ 8 then none else some (rom2bitsCore rom)

/-- The inner loop of `bits2rom` for one 8-bit chunk: `value = 0; for b in
reversed(bits[n:n+8]): value <<= 1; value += 1 if b else 0`. -/
def bitsByte (bits : List Nat) : Nat :=
  bits.foldr (fun b v => 2 * v + (if b ≠ 0 then 1 else 0)) 0

/-- Byte reassembly of a bit list in chunks of 8 (the body of `bits2rom`
after its length check). -/
def bits2romCore : List Nat → List Nat
  | [] => []
  | b :: rest => bitsByte (b :: rest.take 7) :: bits2romCore (rest.drop 7)
termination_by l => l.length
decreasing_by simp [List.length_drop]; omega

/-- `bits2rom(bits)` from utils.py: raises `ValueError` (modelled `none`)
unless the input has exactly 64 bits. -/
def bits2rom (bits : List Nat) : Option (List Nat) :=
  if bits.length ≠ 64 then none else some (bits2romCore bits)

/-- Uppercase hex digit or decimal digit (the character class produced by
`rom2str`, spec 6 "16 uppercase hex characters"). -/
def isUpperHex (c : Char) : Bool :=
  (48 ≤ c.toNat && c.toNat ≤ 57) || (65 ≤ c.toNat && c.toNat ≤ 70)

/-! ## `digitemp/device/termometer.py` : temperature decoding

Python float arithmetic is modelled by exact rational arithmetic; every
concrete value appearing in the claims is a dyadic rational on which the two
agree. -/

/-- `struct.unpack('<h', bytes)[0]`: the signed 16-bit little-endian value of
two bytes. -/
def sgn16le (b0 b1 : Nat) : Int :=
  let v := b0 + 256 * b1
  if v < 32768 then (v : Int) else (v : Int) - 65536

/-- Python `int()` applied to a real value: truncation toward zero. -/
def pyTrunc (q : ℚ) : ℤ := if 0 ≤ q then ⌊q⌋ else ⌈q⌉

/-- Rounding to the nearest integer, ties to the even neighbour, as Python's
`round` resolves exact halves. -/
def roundHalfEven (q : ℚ) : ℤ :=
  if q - ⌊q⌋ = 1/2 then (if Even ⌊q⌋ then ⌊q⌋ else ⌊q⌋ + 1) else round q

/-- Python `round(x, 2)` on an exact rational value. -/
def pyRound2 (q : ℚ) : ℚ := (roundHalfEven (100 * q) : ℚ) / 100

/-- `DS18S20._calc_temperature(scratchpad, precise)` (termometer.py lines
184-197): bytes 0-1 as signed 16-bit little-endian, divided by 2; in precise
mode refined through count-remain byte 6 and count-per-degree byte 7 with
Python `int()` truncation and `round(_, 2)`.  `none` models the
`ZeroDivisionError` Python raises when byte 7 is zero in precise mode. -/
def calc_temperature_DS18S20 (scratchpad : List Nat) (precise : Bool) :
    Option ℚ :=
  let temperature : ℚ :=
    (sgn16le (scratchpad.getD 0 0) (scratchpad.getD 1 0) : ℚ) / 2
  if precise then
    let count_remain : Nat := scratchpad.getD 6 0
    let count_per_c : Nat := scratchpad.getD 7 0
    if count_per_c = 0 then none
    else some (pyRound2 ((pyTrunc temperature : ℚ) - 1/4 +
      ((count_per_c : ℚ) - (count_remain : ℚ)) / (count_per_c : ℚ)))
  else some temperature

/-- The precise-mode formula exactly as the claim words it, with `floor`
in place of the code's `int()` truncation (for the C3 counterexample). -/
def calc_temperature_claim_floor (scratchpad : List Nat) : ℚ :=
  let temperature : ℚ :=
    (sgn16le (scratchpad.getD 0 0) (scratchpad.getD 1 0) : ℚ) / 2
  let count_remain : Nat := scratchpad.getD 6 0
  let count_per_c : Nat := scratchpad.getD 7 0
  pyRound2 ((⌊temperature⌋ : ℚ) - 1/4 +
    ((count_per_c : ℚ) - (count_remain : ℚ)) / (count_per_c : ℚ))

/-- Modelled from the spec: the family-0x22/0x28 decoder
(`DS18B20._calc_temperature` in `digitemp/device/thermometer.py`) is not
present under `src/` — only its caller `factories.py` and its test
`test_thermometer.py` are.  Per spec 4.6 it returns the signed 16-bit
little-endian value of scratchpad bytes 0-1 divided by 16, with no auxiliary
precision refinement. -/
def calc_temperature_12bit (scratchpad : List Nat) : ℚ :=
  (sgn16le (scratchpad.getD 0 0) (scratchpad.getD 1 0) : ℚ) / 16

/-! ## `master.py` : reset / presence detect -/

/-- Lowercase hex digit character, as produced by Python's `'%02x'`. -/
def hexDigitL (n : Nat) : Char :=
  if n < 10 then Char.ofNat (48 + n) else Char.ofNat (87 + n)

/-- The two characters `'%02x' % b` for a byte `b < 256`. -/
def byteHexL (b : Nat) : List Char :=
  [hexDigitL (b / 16), hexDigitL (b % 16)]

/-- The observable channel state that `reset()` manipulates: the configured
baud rate. -/
structure UartState where
  baudrate : Nat
deriving DecidableEq

/-- `UART_Adapter.reset()` (master.py lines 208-232) against a channel whose
one-byte read-back yields `resp` (`none` models a short read, i.e. a read
timeout).  Serial-library exceptions (the `DeviceError` paths) are outside the
model.  Mirrors the code order: set baud 9600, write 0xF0, read one byte,
raise `AdapterError('Read/Write error')` on a short read, set baud 115200,
then interpret the byte. -/
def uartReset (resp : Option Nat) (u : UartState) :
    UartState × Except OWError Unit :=
  let u9 : UartState := { u with baudrate := 9600 }
  match resp with
  | none => (u9, .error (.adapter "Read/Write error"))
  | some d =>
    let u115 : UartState := { u9 with baudrate := 115200 }
    if d = 0xf0 then
      (u115, .error (.adapter "No 1-wire device present"))
    else if 0x10 ≤ d ∧ d ≤ 0xe0 then
      (u115, .ok ())
    else
      (u115, .error (.adapter ("Presence error: 0x" ++ String.mk (byteHexL d))))

/-! ## `master.py` : the ROM search engine over a simulated bus

A simulated device is its 64-entry ROM bit list (least-significant bit of
byte 0 first, the order produced by `rom2bits`); its internal cursor always
equals the number of completed search bit cycles, so the bus state is just
the list of still-participating devices. -/

/-- Read time slot at bit position `i`: every participating device with ROM
bit 0 pulls the line low, so the master reads 1 exactly when all
participating devices have bit 1 — and also when no device participates. -/
def lineReadBit (s : List (List Nat)) (i : Nat) : Nat :=
  if s.all (fun d => d.getD i 0 == 1) then 1 else 0

/-- Read time slot for the complement bit: a device pulls the line low when
its ROM bit is 1, so the master reads 1 exactly when all participating
devices have bit 0. -/
def lineReadCmp (s : List (List Nat)) (i : Nat) : Nat :=
  if s.all (fun d => d.getD i 0 == 0) then 1 else 0

/-- Write time slot: devices whose ROM bit at position `i` differs from the
written bit stop participating until the next reset. -/
def lineWrite (s : List (List Nat)) (i : Nat) (b : Nat) : List (List Nat) :=
  s.filter (fun d => d.getD i 0 == b)

/-- The prefix-replay loop of `search` (master.py lines 299-302): per known
bit, two reads (values discarded) and one write. -/
def replayBits (s : List (List Nat)) (i : Nat) : List Nat → List (List Nat)
  | [] => s
  | b :: bs => replayBits (lineWrite s i b) (i + 1) bs

/-- The bit-discovery loop of `search` (master.py lines 304-325) with `n`
positions remaining.  Yields the completed ROM bit path (`none` when an
alarm-mode double-one abandoned the attempt) and the partial paths appended
to `partial_roms`, in append order. -/
def searchWalk (alarm : Bool) (s : List (List Nat)) (p : List Nat) :
    Nat → Except OWError (Option (List Nat) × List (List Nat))
  | 0 => .ok (some p, [])
  | n + 1 =>
    let b1 := lineReadBit s p.length
    let b2 := lineReadCmp s p.length
    if b1 ≠ b2 then
      searchWalk alarm (lineWrite s p.length b1) (p ++ [b1]) n
    else if b1 = 0 then
      match searchWalk alarm (lineWrite s p.length 0) (p ++ [0]) n with
      | .ok (c, rest) => .ok (c, (p ++ [1]) :: rest)
      | .error e => .error e
    else
      if alarm then .ok (none, [])
      else .error (.adapter "Search command got wrong bits (two sequential 0b1)")

/-- One invocation of the nested `search(current_rom)` function: `reset()`
(which fails when no device at all is on the bus), the search command byte
(0xEC selects only the alarming devices, 0xF0 all of them), the prefix
replay, then the discovery walk. -/
def searchOne (devs resp : List (List Nat)) (alarm : Bool) (q : List Nat) :
    Except OWError (Option (List Nat) × List (List Nat)) :=
  if devs.isEmpty then .error (.adapter "No 1-wire device present")
  else searchWalk alarm (replayBits resp 0 q) q (64 - q.length)

/-- The work-list loop of `search_ROM` (master.py lines 327-329): `search()`
then `while len(partial_roms): search(partial_roms.pop())`, each completed
path converted through `bits2rom` into `complete_roms`.  The Python loop is
unbounded; `fuel` bounds the model and `search_ROM` supplies an amount the
correctness theorems show sufficient. -/
def searchLoop (devs resp : List (List Nat)) (alarm : Bool) :
    Nat → List (List Nat) → List (List Nat) → Except OWError (List (List Nat))
  | 0, _, _ => .error .fuelOut
  | fuel + 1, work, acc =>
    match work.getLast? with
    | none => .ok acc
    | some q =>
      match searchOne devs resp alarm q with
      | .error e => .error e
      | .ok (copt, pushes) =>
        match copt with
        | none => searchLoop devs resp alarm fuel (work.dropLast ++ pushes) acc
        | some c =>
          match bits2rom c with
          | some r =>
            searchLoop devs resp alarm fuel (work.dropLast ++ pushes) (acc ++ [r])
          | none => .error (.format "bits array length shall be 64")

/-- `UART_Adapter.search_ROM(alarm)` (master.py lines 276-331) on a simulated
bus carrying `devs`, of which `alarmers` have a set alarm flag. -/
def search_ROM (devs alarmers : List (List Nat)) (alarm : Bool) :
    Except OWError (List (List Nat)) :=
  let resp := if alarm then alarmers else devs
  searchLoop devs resp alarm (resp.length + 2) [[]] []

/-- The devices of `D` whose ROM bit list extends the partial path `p`; the
set of devices still responding after the search walk has replayed `p`. -/
def extenders (D : List (List Nat)) (p : List Nat) : List (List Nat) :=
  D.filter (fun d => p.isPrefixOf d)

/-- The replay walk of `is_connected` (master.py lines 352-357): per bit of
the given ROM, read the bit and its complement; a double-one means no device
matches the prefix — return `False` — otherwise write the ROM's bit. -/
def icWalk (s : List (List Nat)) (i : Nat) : List Nat → Bool
  | [] => true
  | b :: bs =>
    let b1 := lineReadBit s i
    let b2 := lineReadCmp s i
    if b1 = 1 ∧ b2 = 1 then false
    else icWalk (lineWrite s i b) (i + 1) bs

/-- `UART_Adapter.is_connected(rom_code)` (master.py lines 345-358) on the
simulated bus: reset, search command 0xF0, then the replay walk over
`rom2bits(rom_code)`. -/
def is_connected (devs : List (List Nat)) (rom : List Nat) :
    Except OWError Bool :=
  if devs.isEmpty then .error (.adapter "No 1-wire device present")
  else
    match rom2bits rom with
    | none => .error (.format "bytes array length shall be 8")
    | some bits => .ok (icWalk devs 0 bits)

/-! ## `termometer.py` : the get_temperature operation

The bus is abstracted by outcome oracles: `reset0`/`conv` are the outcomes of
the initial device selection and of Convert T, and `resetStep i`/`readStep i`
the outcomes of the selection and Read Scratchpad of retry attempt `i`.  The
model counts the Read Scratchpad attempts actually performed. -/

/-- The retry loop of `get_temperature` (termometer.py lines 70-78):
`for i in range(attempts): self._reset(); try: ... break; except CRCError:
pass; else: raise CRCError('read_scratchpad: CRC error')`.  Returns the
loop's outcome together with the number of Read Scratchpad calls made. -/
def scratchLoop (resetStep : Nat → Except OWError Unit)
    (readStep : Nat → Except OWError (List Nat)) :
    Nat → Nat → Except OWError (List Nat) × Nat
  | _, 0 => (.error (.crc "read_scratchpad: CRC error"), 0)
  | i, rem + 1 =>
    match resetStep i with
    | .error e => (.error e, 0)
    | .ok _ =>
      match readStep i with
      | .ok s => (.ok s, 1)
      | .error (.crc _) =>
        let r := scratchLoop resetStep readStep (i + 1) rem
        (r.1, r.2 + 1)
      | .error e => (.error e, 1)

/-- Python's `'Temperature sensor (%s) error %s' % (rom2str(...), str(e))`
diagnostic line printed by `get_temperature`. -/
def errReport (rom : List Nat) (e : OWError) : String :=
  "Temperature sensor (" ++ rom2str rom ++ ") error " ++ e.msg

/-- Outcome record of one `get_temperature` call: the returned value, the
diagnostic printed on failure, the number of Convert T commands issued and
the number of Read Scratchpad attempts made. -/
structure GetTempOutcome where
  result : Option ℚ
  diag : Option String
  converts : Nat
  reads : Nat

/-- `OneWireTemperatureSensor.get_temperature(attempts)` (termometer.py lines
57-83): normalize the attempt count (`attempts if attempts > 1 else 1`),
select + Convert T once, then the retry loop; every `OneWireException` is
caught, reported with the device identity, and turned into `None`. -/
def get_temperature (rom : List Nat) (attempts : Int)
    (reset0 conv : Except OWError Unit)
    (resetStep : Nat → Except OWError Unit)
    (readStep : Nat → Except OWError (List Nat))
    (calcT : List Nat → ℚ) : GetTempOutcome :=
  let a : Int := if attempts > 1 then attempts else 1
  match reset0 with
  | .error e =>
    { result := none, diag := some (errReport rom e), converts := 0, reads := 0 }
  | .ok _ =>
    match conv with
    | .error e =>
      { result := none, diag := some (errReport rom e), converts := 1,
        reads := 0 }
    | .ok _ =>
      let lr := scratchLoop resetStep readStep 0 a.toNat
      match lr.1 with
      | .ok s =>
        { result := some (calcT s), diag := none, converts := 1, reads := lr.2 }
      | .error e =>
        { result := none, diag := some (errReport rom e), converts := 1,
          reads := lr.2 }

/-! ## `termometer.py` : multidrop sensor construction -/

/-- The fields of a constructed temperature-sensor handle that C10 talks
about. -/
structure SensorHandle where
  rom_code : List Nat
  single_mode : Bool
  parasitic : Bool

/-- `OneWireTemperatureSensor.__init__(bus, rom)` with an explicitly supplied
ROM string (termometer.py lines 29-35, multidrop branch): decode the string,
verify presence via `is_connected`, raise `DeviceError` naming the ROM when
the walk reports it absent, otherwise select the device (`_reset` →
`match_ROM`, needing bus presence) and issue one Read Power Supply command
(0xB4), whose returned bit 0 means parasitic power.  The second component
lists the ROM/function command bytes issued after the decode: 0xF0 by
`is_connected`, 0x55 by `match_ROM`, 0xB4 by `_power_supply`. -/
def sensorInitMulti (devs : List (List Nat)) (romStr : String)
    (powerBit : Nat) : Except OWError (SensorHandle × List Nat) :=
  match str2rom romStr with
  | none => .error (.format "non-hexadecimal number found in fromhex() arg")
  | some rc =>
    match is_connected devs rc with
    | .error e => .error e
    | .ok false =>
      .error (.device ("Device with ROM code " ++ rom2str rc ++ " not found"))
    | .ok true =>
      if devs.isEmpty then .error (.adapter "No 1-wire device present")
      else
        .ok ({ rom_code := rc, single_mode := false,
               parasitic := powerBit == 0 }, [0xf0, 0x55, 0xb4])

/-! ## C5 : the CRC8 engine matches the reference Dallas/Maxim CRC-8 -/

theorem and_one_xor_and_one (a b : Nat) :
    (a ^^^ b) &&& 1 = (a &&& 1) ^^^ (b &&& 1) := by
  have h1 : ∀ n : Nat, n &&& 1 = n % 2 := fun n => Nat.and_one_is_mod n
  rw [h1, h1, h1, Nat.xor_mod_two_eq]
  rcases Nat.mod_two_eq_zero_or_one a with h | h <;>
    rcases Nat.mod_two_eq_zero_or_one b with h' | h' <;>
      simp [h, h', Nat.add_mod]

theorem crc8_bit_eq_ref_bit (s : Nat × Nat) : crc8_bit s = crc8_ref_bit s := by
  obtain ⟨a, b⟩ := s
  have hmix : (a ^^^ b) &&& 1 = (a &&& 1) ^^^ (b &&& 1) := and_one_xor_and_one a b
  have hlt : (a ^^^ b) &&& 1 < 2 := by
    rw [Nat.and_one_is_mod]; exact Nat.mod_lt _ (by omega)
  simp only [crc8_bit, crc8_ref_bit, ← hmix]
  have h : (a ^^^ b) &&& 1 = 0 ∨ (a ^^^ b) &&& 1 = 1 := by omega
  rcases h with h | h <;> simp [h]

theorem crc8_bits_eq_ref_bits (n : Nat) (s : Nat × Nat) :
    crc8_bits n s = crc8_ref_bits n s := by
  induction n generalizing s with
  | zero => rfl
  | succ n ih => simp only [crc8_bits, crc8_ref_bits, crc8_bit_eq_ref_bit, ih]

set_option maxRecDepth 100000 in
/-- C5: `crc8` computes exactly the reference Dallas/Maxim CRC-8 (initial CRC
0; per input byte, least-significant bit first, XOR the CRC's low bit with the
data bit, shift the CRC right, XOR with 0x8C when the mix was 1); it is total
on every byte sequence including the empty one (`crc8 [] = 0`), and the two
known vectors hold: `crc8 [0x10,0xA7,0x5C,0xA8,0x02,0x08,0x00] = 0x1A` and
appending that byte yields CRC 0. -/
theorem crc8_is_dallas_maxim_reference :
    (∀ data : List Nat, crc8 data = crc8_ref data) ∧
    crc8 [] = 0x00 ∧
    crc8 [0x10, 0xa7, 0x5c, 0xa8, 0x02, 0x08, 0x00] = 0x1a ∧
    crc8 [0x10, 0xa7, 0x5c, 0xa8, 0x02, 0x08, 0x00, 0x1a] = 0x00 := by
  refine ⟨fun data => ?_, rfl, by decide, by decide⟩
  unfold crc8 crc8_ref
  congr 1
  funext crc byte
  rw [crc8_bits_eq_ref_bits]

/-! ## Codec lemmas for C4 and C9 -/

theorem char_ofNat_toNat (c : Char) (h : c.toNat ≤ 200) :
    Char.ofNat c.toNat = c := by
  have hvalid : c.toNat.isValidChar := by left; omega
  simp only [Char.ofNat, hvalid, dite_true]
  apply Char.eq_of_val_eq
  simp only [Char.ofNatAux]
  apply UInt32.eq_of_toBitVec_eq
  simp [UInt32.ofNat']
  apply BitVec.eq_of_toNat_eq
  simp [Char.toNat, UInt32.toNat]

theorem hexVal_hexDigitU : ∀ n < 16, hexVal (hexDigitU n) = n := by decide

theorem isHexDigit_hexDigitU : ∀ n < 16, isHexDigit (hexDigitU n) = true := by
  decide

theorem isUpperHex_hexDigitU : ∀ n < 16, isUpperHex (hexDigitU n) = true := by
  decide

theorem not_isPyWs_hexDigitU : ∀ n < 16, isPyWs (hexDigitU n) = false := by
  decide

theorem hexVal_lt_16 (c : Char) (h : isHexDigit c = true) : hexVal c < 16 := by
  simp [isHexDigit] at h
  simp only [hexVal]
  split
  · omega
  · split <;> omega

theorem isUpperHex_isHexDigit (c : Char) (h : isUpperHex c = true) :
    isHexDigit c = true := by
  simp [isUpperHex] at h
  simp [isHexDigit]
  omega

theorem hexDigitU_hexVal (c : Char) (h : isUpperHex c = true) :
    hexDigitU (hexVal c) = c := by
  simp [isUpperHex] at h
  rcases h with h | h
  · have h1 : hexVal c = c.toNat - 48 := by
      simp only [hexVal]; rw [if_pos (by omega)]
    rw [h1]
    simp only [hexDigitU]
    rw [if_pos (by omega : c.toNat - 48 < 10),
      (by omega : 48 + (c.toNat - 48) = c.toNat)]
    exact char_ofNat_toNat c (by omega)
  · have h1 : hexVal c = c.toNat - 55 := by
      simp only [hexVal]
      rw [if_neg (by omega), if_neg (by omega)]
    rw [h1]
    simp only [hexDigitU]
    rw [if_neg (by omega : ¬ c.toNat - 55 < 10),
      (by omega : 55 + (c.toNat - 55) = c.toNat)]
    exact char_ofNat_toNat c (by omega)

theorem byteHexU_hexVal (c1 c2 : Char) (h1 : isUpperHex c1 = true)
    (h2 : isUpperHex c2 = true) :
    byteHexU (hexVal c1 * 16 + hexVal c2) = [c1, c2] := by
  have v1 : hexVal c1 < 16 := hexVal_lt_16 c1 (isUpperHex_isHexDigit c1 h1)
  have v2 : hexVal c2 < 16 := hexVal_lt_16 c2 (isUpperHex_isHexDigit c2 h2)
  have hd : (hexVal c1 * 16 + hexVal c2) / 16 = hexVal c1 := by omega
  have hm : (hexVal c1 * 16 + hexVal c2) % 16 = hexVal c2 := by omega
  simp only [byteHexU, hd, hm, hexDigitU_hexVal c1 h1, hexDigitU_hexVal c2 h2]

theorem fromhexChars_cons_ws (c : Char) (cs : List Char) (h : isPyWs c = true) :
    fromhexChars (c :: cs) = fromhexChars cs := by
  rw [fromhexChars.eq_def]; simp [h]

theorem fromhexChars_cons_bad (c : Char) (cs : List Char)
    (hws : isPyWs c = false) (hhex : isHexDigit c = false) :
    fromhexChars (c :: cs) = none := by
  rw [fromhexChars.eq_def]; simp [hws, hhex]

theorem fromhexChars_one (c : Char) (hws : isPyWs c = false)
    (hhex : isHexDigit c = true) : fromhexChars [c] = none := by
  rw [fromhexChars.eq_def]; simp [hws, hhex]

theorem fromhexChars_pair (c c2 : Char) (cs2 : List Char)
    (hws : isPyWs c = false) (hhex : isHexDigit c = true)
    (hhex2 : isHexDigit c2 = true) :
    fromhexChars (c :: c2 :: cs2) =
      (fromhexChars cs2).map (fun bs => (hexVal c * 16 + hexVal c2) :: bs) := by
  rw [fromhexChars.eq_def]; simp [hws, hhex, hhex2]

theorem fromhexChars_pair_bad (c c2 : Char) (cs2 : List Char)
    (hws : isPyWs c = false) (hhex : isHexDigit c = true)
    (hhex2 : isHexDigit c2 = false) :
    fromhexChars (c :: c2 :: cs2) = none := by
  rw [fromhexChars.eq_def]; simp [hws, hhex, hhex2]

/-- A string containing a character that is neither a hex digit nor ASCII
whitespace fails to decode (half of C4's `str_to_rom` clause). -/
theorem fromhexChars_bad_char (cs : List Char) (c : Char) (hc : c ∈ cs)
    (hws : isPyWs c = false) (hhex : isHexDigit c = false) :
    fromhexChars cs = none := by
  match cs, hc with
  | d :: ds, hc =>
    rcases List.mem_cons.mp hc with rfl | hmem
    · exact fromhexChars_cons_bad c ds hws hhex
    · rcases Bool.eq_false_or_eq_true (isPyWs d) with hdw | hdw
      case inl =>
        rw [fromhexChars_cons_ws d ds hdw]
        exact fromhexChars_bad_char ds c hmem hws hhex
      rcases Bool.eq_false_or_eq_true (isHexDigit d) with hdh | hdh
      case inr => exact fromhexChars_cons_bad d ds hdw hdh
      match ds, hmem with
      | d2 :: ds2, hmem =>
        rcases List.mem_cons.mp hmem with rfl | hmem2
        · exact fromhexChars_pair_bad d c ds2 hdw hdh hhex
        · rcases Bool.eq_false_or_eq_true (isHexDigit d2) with hd2 | hd2
          · rw [fromhexChars_pair d d2 ds2 hdw hdh hd2,
              fromhexChars_bad_char ds2 c hmem2 hws hhex]
            rfl
          · exact fromhexChars_pair_bad d d2 ds2 hdw hdh hd2
termination_by cs.length

theorem isHexDigit_not_ws (c : Char) (h : isHexDigit c = true) :
    isPyWs c = false := by
  simp [isHexDigit] at h
  simp [isPyWs]
  omega

/-- On an all-hex-digit character list, `fromhex` succeeds exactly when the
number of digits is even, producing one byte below 256 per digit pair. -/
theorem fromhexChars_all_hex (cs : List Char)
    (h : ∀ c ∈ cs, isHexDigit c = true) :
    (cs.length % 2 = 1 → fromhexChars cs = none) ∧
    (cs.length % 2 = 0 →
      ∃ bs, fromhexChars cs = some bs ∧ bs.length = cs.length / 2 ∧
        ∀ b ∈ bs, b < 256) := by
  match cs with
  | [] =>
    exact ⟨fun h1 => by simp at h1, fun _ => ⟨[], rfl, rfl, by simp⟩⟩
  | [c] =>
    have hc := h c (by simp)
    refine ⟨fun _ => ?_, fun h0 => by simp at h0⟩
    exact fromhexChars_one c (isHexDigit_not_ws c hc) hc
  | c :: c2 :: cs2 =>
    have hc := h c (by simp)
    have hc2 := h c2 (by simp)
    have ih := fromhexChars_all_hex cs2 (fun x hx => h x (by simp [hx]))
    have hstep : fromhexChars (c :: c2 :: cs2) =
        (fromhexChars cs2).map (fun bs => (hexVal c * 16 + hexVal c2) :: bs) :=
      fromhexChars_pair c c2 cs2 (isHexDigit_not_ws c hc) hc hc2
    constructor
    · intro hodd
      have : cs2.length % 2 = 1 := by simp at hodd; omega
      rw [hstep, ih.1 this]
      rfl
    · intro heven
      have : cs2.length % 2 = 0 := by simp at heven; omega
      obtain ⟨bs, hbs, hlen, hlt⟩ := ih.2 this
      refine ⟨(hexVal c * 16 + hexVal c2) :: bs, by rw [hstep, hbs]; rfl, ?_, ?_⟩
      · simp [hlen]; omega
      · intro b hb
        rcases List.mem_cons.mp hb with rfl | hb
        · have := hexVal_lt_16 c hc
          have := hexVal_lt_16 c2 hc2
          omega
        · exact hlt b hb
termination_by cs.length

/-- Decoding the uppercase hex rendering of a byte list gives the bytes back. -/
theorem fromhexChars_flatMap_byteHexU (r : List Nat) (h : ∀ b ∈ r, b < 256) :
    fromhexChars (r.flatMap byteHexU) = some r := by
  induction r with
  | nil => rfl
  | cons b rest ih =>
    have hb : b < 256 := h b (by simp)
    have hd : b / 16 < 16 := by omega
    have hm : b % 16 < 16 := by omega
    rw [List.flatMap_cons]
    show fromhexChars (hexDigitU (b / 16) :: hexDigitU (b % 16) :: rest.flatMap byteHexU) = _
    rw [fromhexChars_pair _ _ _ (not_isPyWs_hexDigitU _ hd)
      (isHexDigit_hexDigitU _ hd) (isHexDigit_hexDigitU _ hm),
      ih (fun x hx => h x (by simp [hx]))]
    simp [hexVal_hexDigitU _ hd, hexVal_hexDigitU _ hm]
    omega

/-- Decoding an even-length all-uppercase-hex character list succeeds and
re-encoding the bytes reproduces the characters. -/
theorem fromhexChars_upper_round (cs : List Char)
    (h : ∀ c ∈ cs, isUpperHex c = true) (heven : cs.length % 2 = 0) :
    ∃ bs, fromhexChars cs = some bs ∧ bs.flatMap byteHexU = cs ∧
      bs.length = cs.length / 2 := by
  match cs with
  | [] => exact ⟨[], rfl, rfl, rfl⟩
  | [c] => simp at heven
  | c :: c2 :: cs2 =>
    have hc := h c (by simp)
    have hc2 := h c2 (by simp)
    have hhc := isUpperHex_isHexDigit c hc
    have hhc2 := isUpperHex_isHexDigit c2 hc2
    obtain ⟨bs, hbs, henc, hlen⟩ := fromhexChars_upper_round cs2
      (fun x hx => h x (by simp [hx])) (by simp at heven ⊢; omega)
    refine ⟨(hexVal c * 16 + hexVal c2) :: bs, ?_, ?_, ?_⟩
    · rw [fromhexChars_pair c c2 cs2 (isHexDigit_not_ws c hhc) hhc hhc2, hbs]
      rfl
    · rw [List.flatMap_cons, byteHexU_hexVal c c2 hc hc2, henc]
      rfl
    · simp [hlen]
      omega
termination_by cs.length

theorem byteBits_length (n b : Nat) : (byteBits n b).length = n := by
  induction n generalizing b with
  | zero => rfl
  | succ n ih => simp [byteBits, ih]

theorem rom2bitsCore_length (r : List Nat) :
    (rom2bitsCore r).length = 8 * r.length := by
  induction r with
  | nil => rfl
  | cons b rest ih =>
    simp [rom2bitsCore, List.flatMap_cons, byteBits_length] at ih ⊢
    omega

theorem bitsByte_byteBits (n b : Nat) :
    bitsByte (byteBits n b) = b % 2 ^ n := by
  induction n generalizing b with
  | zero => simp [byteBits, bitsByte, Nat.mod_one]
  | succ n ih =>
    have hc : bitsByte (byteBits (n + 1) b) =
        2 * bitsByte (byteBits n (b >>> 1)) + (if b % 2 ≠ 0 then 1 else 0) := rfl
    have hif : (if b % 2 ≠ 0 then 1 else 0) = b % 2 := by
      rcases Nat.mod_two_eq_zero_or_one b with hb | hb <;> simp [hb]
    rw [hc, ih (b >>> 1), Nat.shiftRight_one, hif]
    have h2 : 2 ^ (n + 1) = 2 * 2 ^ n := by ring
    rw [h2, Nat.mod_mul]
    omega

theorem bits2romCore_byteBits_append (b : Nat) (rest : List Nat) :
    bits2romCore (byteBits 8 b ++ rest) = b % 256 :: bits2romCore rest := by
  have h8 : byteBits 8 b = b % 2 :: byteBits 7 (b >>> 1) := rfl
  have h7 : (byteBits 7 (b >>> 1)).length = 7 := byteBits_length 7 _
  rw [h8, List.cons_append, bits2romCore]
  rw [List.take_left' h7, List.drop_left' h7]
  have hbb : bitsByte (b % 2 :: byteBits 7 (b >>> 1)) = bitsByte (byteBits 8 b) := by
    rw [h8]
  rw [hbb, bitsByte_byteBits]
  norm_num

theorem bits2romCore_rom2bitsCore (r : List Nat) (h : ∀ b ∈ r, b < 256) :
    bits2romCore (rom2bitsCore r) = r := by
  induction r with
  | nil => simp [rom2bitsCore, bits2romCore]
  | cons b rest ih =>
    rw [rom2bitsCore, List.flatMap_cons]
    show bits2romCore (byteBits 8 b ++ rom2bitsCore rest) = _
    rw [bits2romCore_byteBits_append, ih (fun x hx => h x (by simp [hx])),
      Nat.mod_eq_of_lt (h b (by simp))]

/-- C4 counterexample: the claim says `str_to_rom` fails on every string whose
length differs from 16, but the code has no length check: the two-character
all-hex string "AB" decodes successfully to one byte. -/
theorem str2rom_accepts_wrong_length :
    ("AB" : String).data.length = 2 ∧
    (∀ c ∈ ("AB" : String).data, isHexDigit c = true) ∧
    str2rom "AB" = some [0xab] := by decide

/-- C4 (amended): `str_to_rom` fails exactly on malformed hex — a character
that is neither a hex digit nor ASCII whitespace, or an odd number of hex
digits — and succeeds on any even number of hex digits (one byte per pair,
with no 16-length requirement); `rom_to_bits` fails precisely when its input
is not exactly 8 bytes, and `bits_to_rom` precisely when its input is not
exactly 64 bits. -/
theorem codec_failure_modes :
    (∀ s : String, (∃ c ∈ s.data, isPyWs c = false ∧ isHexDigit c = false) →
      str2rom s = none) ∧
    (∀ s : String, (∀ c ∈ s.data, isHexDigit c = true) →
      s.data.length % 2 = 1 → str2rom s = none) ∧
    (∀ s : String, (∀ c ∈ s.data, isHexDigit c = true) →
      s.data.length % 2 = 0 →
      ∃ bs, str2rom s = some bs ∧ bs.length = s.data.length / 2) ∧
    (∀ rom : List Nat, rom2bits rom = none ↔ rom.length ≠ 8) ∧
    (∀ bits : List Nat, bits2rom bits = none ↔ bits.length ≠ 64) := by
  refine ⟨?_, ?_, ?_, ?_, ?_⟩
  · rintro s ⟨c, hc, hws, hhex⟩
    exact fromhexChars_bad_char s.data c hc hws hhex
  · intro s hall hodd
    exact (fromhexChars_all_hex s.data hall).1 hodd
  · intro s hall heven
    obtain ⟨bs, hbs, hlen, _⟩ := (fromhexChars_all_hex s.data hall).2 heven
    exact ⟨bs, hbs, hlen⟩
  · intro rom
    unfold rom2bits
    split <;> simp_all
  · intro bits
    unfold bits2rom
    split <;> simp_all

/-- Witness instantiating every hypothesis of `codec_failure_modes` at
concrete inputs. -/
theorem codec_failure_modes_witness :
    str2rom "0G" = none ∧ str2rom "ABC" = none ∧
    (∃ bs, str2rom "ABCD" = some bs ∧
      bs.length = ("ABCD" : String).data.length / 2) ∧
    (rom2bits [0] = none ↔ ([0] : List Nat).length ≠ 8) ∧
    (bits2rom [1] = none ↔ ([1] : List Nat).length ≠ 64) :=
  ⟨codec_failure_modes.1 "0G" (by decide),
   codec_failure_modes.2.1 "ABC" (by decide) (by decide),
   codec_failure_modes.2.2.1 "ABCD" (by decide) (by decide),
   codec_failure_modes.2.2.2.1 [0],
   codec_failure_modes.2.2.2.2 [1]⟩

/-- C9 counterexample: the round trip `rom_to_str (str_to_rom s) = s` fails
for the syntactically valid lowercase 16-hex-character string
"aa00000000000000": `str_to_rom` accepts it, but `rom_to_str` renders
uppercase. -/
theorem round_trip_fails_on_lowercase :
    ("aa00000000000000" : String).data.length = 16 ∧
    (∀ c ∈ ("aa00000000000000" : String).data, isHexDigit c = true) ∧
    str2rom "aa00000000000000" = some [170, 0, 0, 0, 0, 0, 0, 0] ∧
    rom2str [170, 0, 0, 0, 0, 0, 0, 0] ≠ "aa00000000000000" := by decide

/-- C9 (amended): the codec round trips hold with the string side restricted
to the canonical uppercase alphabet: `rom_to_str (str_to_rom s) = s` for every
16-character string of digits and uppercase hex letters (for lowercase input
the code returns the uppercased string instead); `str_to_rom (rom_to_str r) =
r` for every 8-byte value; `bits_to_rom (rom_to_bits r) = r` for every 8-byte
value; and `rom_to_bits` of an 8-byte value yields exactly 64 bits. -/
theorem codec_round_trips :
    (∀ s : String, s.data.length = 16 → (∀ c ∈ s.data, isUpperHex c = true) →
      ∃ r, str2rom s = some r ∧ rom2str r = s) ∧
    (∀ r : List Nat, r.length = 8 → (∀ b ∈ r, b < 256) →
      str2rom (rom2str r) = some r) ∧
    (∀ r : List Nat, r.length = 8 → (∀ b ∈ r, b < 256) →
      ∃ bits, rom2bits r = some bits ∧ bits.length = 64 ∧
        bits2rom bits = some r) := by
  refine ⟨?_, ?_, ?_⟩
  · intro s hlen hupper
    obtain ⟨bs, hbs, henc, _⟩ := fromhexChars_upper_round s.data hupper
      (by rw [hlen])
    refine ⟨bs, hbs, ?_⟩
    show String.mk (bs.flatMap byteHexU) = s
    rw [henc]
  · intro r _ hbytes
    exact fromhexChars_flatMap_byteHexU r hbytes
  · intro r hlen hbytes
    have h64 : (rom2bitsCore r).length = 64 := by
      rw [rom2bitsCore_length, hlen]
    refine ⟨rom2bitsCore r, ?_, h64, ?_⟩
    · unfold rom2bits
      rw [if_neg (by omega)]
    · unfold bits2rom
      rw [if_neg (by omega), bits2romCore_rom2bitsCore r hbytes]

/-- Witness instantiating every hypothesis of `codec_round_trips` at concrete
inputs (the sample ROM from the repository's tests). -/
theorem codec_round_trips_witness :
    (∃ r, str2rom "10A75CA80208001A" = some r ∧ rom2str r = "10A75CA80208001A") ∧
    str2rom (rom2str [0x10, 0xa7, 0x5c, 0xa8, 0x02, 0x08, 0x00, 0x1a]) =
      some [0x10, 0xa7, 0x5c, 0xa8, 0x02, 0x08, 0x00, 0x1a] ∧
    (∃ bits, rom2bits [0x10, 0xa7, 0x5c, 0xa8, 0x02, 0x08, 0x00, 0x1a] =
        some bits ∧ bits.length = 64 ∧
      bits2rom bits = some [0x10, 0xa7, 0x5c, 0xa8, 0x02, 0x08, 0x00, 0x1a]) :=
  ⟨codec_round_trips.1 "10A75CA80208001A" (by decide) (by decide),
   codec_round_trips.2.1 _ (by decide) (by decide),
   codec_round_trips.2.2 _ (by decide) (by decide)⟩

/-! ## C3 / C6 : temperature decoding -/

/-- C3 counterexample: at raw register 0xFFFF (temperature -0.5) with the
default count bytes 0x0C/0x10, the code's precise mode (`int()` truncation
toward zero) yields 0.0 while the claim's `floor`-based formula yields -1.0,
so the claim's precise-mode description is false of the code at this
scratchpad. -/
theorem ds18s20_precise_uses_trunc_not_floor :
    calc_temperature_DS18S20 [0xff, 0xff, 0x4b, 0x46, 0xff, 0xff, 0x0c, 0x10]
      true = some 0 ∧
    calc_temperature_claim_floor
      [0xff, 0xff, 0x4b, 0x46, 0xff, 0xff, 0x0c, 0x10] = -1 ∧
    (some (0 : ℚ) : Option ℚ) ≠ some (-1 : ℚ) := by
  refine ⟨?_, ?_, by simp⟩
  · have h0 : calc_temperature_DS18S20
        [0xff, 0xff, 0x4b, 0x46, 0xff, 0xff, 0x0c, 0x10] true =
        some (pyRound2 ((pyTrunc ((-1 : ℚ)/2) : ℚ) - 1/4 +
          ((16 : ℚ) - (12 : ℚ)) / (16 : ℚ))) := by
      norm_num [calc_temperature_DS18S20, sgn16le]
    have h1 : pyTrunc ((-1 : ℚ)/2) = 0 := by norm_num [pyTrunc]
    rw [h0, h1]
    norm_num [pyRound2, roundHalfEven, round_eq]
  · have h1 : ⌊((-1 : ℚ)/2)⌋ = -1 := by norm_num
    have h0 : calc_temperature_claim_floor
        [0xff, 0xff, 0x4b, 0x46, 0xff, 0xff, 0x0c, 0x10] =
        pyRound2 (((-1 : ℤ) : ℚ) - 1/4 + ((16 : ℚ) - (12 : ℚ)) / (16 : ℚ)) := by
      rw [calc_temperature_claim_floor]
      norm_num [sgn16le, h1]
    rw [h0]
    norm_num [pyRound2, roundHalfEven, round_eq, Int.floor_eq_iff,
      Int.even_iff]

/-- C3 (amended): for every 8-byte scratchpad the family-0x10 decoder in
non-precise mode returns the signed 16-bit little-endian value of bytes 0-1
divided by 2; in precise mode (with counts_per_degree = byte 7 nonzero,
otherwise Python raises ZeroDivisionError) it returns the value truncated
toward zero (Python `int()`, not floor) minus 0.25 plus
(counts_per_degree - count_remain) / counts_per_degree, rounded half-to-even
to 2 decimal places; and the four cited non-precise vectors hold. -/
theorem ds18s20_calc_temperature_correct :
    (∀ sp : List Nat, sp.length = 8 → (∀ b ∈ sp, b < 256) →
      calc_temperature_DS18S20 sp false =
        some ((sgn16le (sp.getD 0 0) (sp.getD 1 0) : ℚ) / 2)) ∧
    (∀ sp : List Nat, sp.length = 8 → (∀ b ∈ sp, b < 256) →
      sp.getD 7 0 ≠ 0 →
      calc_temperature_DS18S20 sp true =
        some (pyRound2
          ((pyTrunc ((sgn16le (sp.getD 0 0) (sp.getD 1 0) : ℚ) / 2) : ℚ) -
            1/4 +
            ((sp.getD 7 0 : ℚ) - (sp.getD 6 0 : ℚ)) / (sp.getD 7 0 : ℚ)))) ∧
    calc_temperature_DS18S20 [0xaa, 0x00, 0x4b, 0x46, 0xff, 0xff, 0x0c, 0x10]
      false = some 85 ∧
    calc_temperature_DS18S20 [0x01, 0x00, 0x4b, 0x46, 0xff, 0xff, 0x0c, 0x10]
      false = some (1/2) ∧
    calc_temperature_DS18S20 [0xff, 0xff, 0x4b, 0x46, 0xff, 0xff, 0x0c, 0x10]
      false = some (-(1/2)) ∧
    calc_temperature_DS18S20 [0x92, 0xff, 0x4b, 0x46, 0xff, 0xff, 0x0c, 0x10]
      false = some (-55) := by
  refine ⟨?_, ?_, ?_, ?_, ?_, ?_⟩
  · intro sp _ _
    simp [calc_temperature_DS18S20]
  · intro sp _ _ h7
    simp only [calc_temperature_DS18S20, if_true]
    rw [if_neg h7]
  · norm_num [calc_temperature_DS18S20, sgn16le]
  · norm_num [calc_temperature_DS18S20, sgn16le]
  · norm_num [calc_temperature_DS18S20, sgn16le]
  · norm_num [calc_temperature_DS18S20, sgn16le]

/-- Witness instantiating `ds18s20_calc_temperature_correct` at the default
scratchpad of the repository's DS18S20 test. -/
theorem ds18s20_calc_temperature_correct_witness :
    calc_temperature_DS18S20 [0xaa, 0x00, 0x4b, 0x46, 0xff, 0xff, 0x0c, 0x10]
      false = some ((sgn16le 0xaa 0x00 : ℚ) / 2) ∧
    calc_temperature_DS18S20 [0xaa, 0x00, 0x4b, 0x46, 0xff, 0xff, 0x0c, 0x10]
      true = some (pyRound2
        ((pyTrunc ((sgn16le 0xaa 0x00 : ℚ) / 2) : ℚ) - 1/4 +
          ((0x10 : ℚ) - (0x0c : ℚ)) / (0x10 : ℚ))) :=
  ⟨ds18s20_calc_temperature_correct.1 _ (by decide) (by decide),
   ds18s20_calc_temperature_correct.2.1 _ (by decide) (by decide) (by decide)⟩

/-- C6: the family-0x22/0x28 decoder returns the signed 16-bit little-endian
value of scratchpad bytes 0-1 divided by 16, with no auxiliary refinement,
and the cited vectors hold (default test scratchpad bytes 2-7). -/
theorem ds18b20_calc_temperature_correct :
    (∀ sp : List Nat, sp.length = 8 → (∀ b ∈ sp, b < 256) →
      calc_temperature_12bit sp =
        (sgn16le (sp.getD 0 0) (sp.getD 1 0) : ℚ) / 16) ∧
    calc_temperature_12bit [0xd0, 0x07, 0x4b, 0x46, 0x7f, 0xff, 0x0c, 0x10]
      = 125 ∧
    calc_temperature_12bit [0x91, 0x01, 0x4b, 0x46, 0x7f, 0xff, 0x0c, 0x10]
      = 401/16 ∧
    calc_temperature_12bit [0xf8, 0xff, 0x4b, 0x46, 0x7f, 0xff, 0x0c, 0x10]
      = -(1/2) ∧
    calc_temperature_12bit [0x90, 0xfc, 0x4b, 0x46, 0x7f, 0xff, 0x0c, 0x10]
      = -55 := by
  refine ⟨fun sp _ _ => rfl, ?_, ?_, ?_, ?_⟩ <;>
    norm_num [calc_temperature_12bit, sgn16le]

/-- Witness instantiating `ds18b20_calc_temperature_correct` at the default
scratchpad of the repository's DS18B20 test. -/
theorem ds18b20_calc_temperature_correct_witness :
    calc_temperature_12bit [0x50, 0x05, 0x4b, 0x46, 0x7f, 0xff, 0x0c, 0x10] =
      (sgn16le 0x50 0x05 : ℚ) / 16 :=
  ds18b20_calc_temperature_correct.1 _ (by decide) (by decide)

/-! ## C8 groundwork : the scratchpad retry loop -/

theorem scratchLoop_reads_le (resetStep : Nat → Except OWError Unit)
    (readStep : Nat → Except OWError (List Nat)) :
    ∀ (rem i : Nat), (scratchLoop resetStep readStep i rem).2 ≤ rem := by
  intro rem
  induction rem with
  | zero => intro i; exact Nat.le_refl 0
  | succ rem ih =>
    intro i
    rw [scratchLoop]
    rcases hreset : resetStep i with e | u
    · simp
    · rcases hread : readStep i with e | s
      · rcases e with m | m | m | m
        · simp
        · simp
        · have := ih (i + 1)
          simp
          omega
        · simp
        · simp
      · simp

theorem scratchLoop_all_crc (resetStep : Nat → Except OWError Unit)
    (readStep : Nat → Except OWError (List Nat)) :
    ∀ (rem i : Nat),
      (∀ k, k < rem → resetStep (i + k) = .ok () ∧
        ∃ m, readStep (i + k) = .error (.crc m)) →
      scratchLoop resetStep readStep i rem =
        (.error (.crc "read_scratchpad: CRC error"), rem) := by
  intro rem
  induction rem with
  | zero => intro i _; rfl
  | succ rem ih =>
    intro i h
    obtain ⟨hreset, m, hread⟩ := h 0 (Nat.succ_pos rem)
    rw [Nat.add_zero] at hreset hread
    rw [scratchLoop, hreset, hread]
    have hrec := ih (i + 1) (fun k hk => by
      have h2 := h (k + 1) (by omega)
      have heq : i + 1 + k = i + (k + 1) := by omega
      rw [heq]
      exact h2)
    simp only [hrec]

theorem scratchLoop_success (resetStep : Nat → Except OWError Unit)
    (readStep : Nat → Except OWError (List Nat)) (s : List Nat) :
    ∀ (j rem i : Nat), j < rem →
      (∀ k, k < j → resetStep (i + k) = .ok () ∧
        ∃ m, readStep (i + k) = .error (.crc m)) →
      resetStep (i + j) = .ok () → readStep (i + j) = .ok s →
      scratchLoop resetStep readStep i rem = (.ok s, j + 1) := by
  intro j
  induction j with
  | zero =>
    intro rem i hj _ hreset hread
    obtain ⟨rem', rfl⟩ := Nat.exists_eq_succ_of_ne_zero (by omega : rem ≠ 0)
    rw [Nat.add_zero] at hreset hread
    rw [scratchLoop, hreset, hread]
  | succ j ih =>
    intro rem i hj hprev hreset hread
    obtain ⟨rem', rfl⟩ := Nat.exists_eq_succ_of_ne_zero (by omega : rem ≠ 0)
    obtain ⟨hreset0, m, hread0⟩ := hprev 0 (Nat.succ_pos j)
    rw [Nat.add_zero] at hreset0 hread0
    rw [scratchLoop, hreset0, hread0]
    have hrec := ih rem' (i + 1) (by omega)
      (fun k hk => by
        have h2 := hprev (k + 1) (by omega)
        have heq : i + 1 + k = i + (k + 1) := by omega
        rw [heq]
        exact h2)
      (by
        have heq : i + 1 + j = i + (j + 1) := by omega
        rw [heq]
        exact hreset)
      (by
        have heq : i + 1 + j = i + (j + 1) := by omega
        rw [heq]
        exact hread)
    simp only [hrec]

theorem scratchLoop_fatal (resetStep : Nat → Except OWError Unit)
    (readStep : Nat → Except OWError (List Nat)) (e : OWError)
    (hnc : ∀ m, e ≠ .crc m) :
    ∀ (j rem i : Nat), j < rem →
      (∀ k, k < j → resetStep (i + k) = .ok () ∧
        ∃ m, readStep (i + k) = .error (.crc m)) →
      resetStep (i + j) = .ok () → readStep (i + j) = .error e →
      scratchLoop resetStep readStep i rem = (.error e, j + 1) := by
  intro j
  induction j with
  | zero =>
    intro rem i hj _ hreset hread
    obtain ⟨rem', rfl⟩ := Nat.exists_eq_succ_of_ne_zero (by omega : rem ≠ 0)
    rw [Nat.add_zero] at hreset hread
    rw [scratchLoop, hreset, hread]
    rcases e with m | m | m | m
    · rfl
    · rfl
    · exact absurd rfl (hnc m)
    · rfl
    · rfl
  | succ j ih =>
    intro rem i hj hprev hreset hread
    obtain ⟨rem', rfl⟩ := Nat.exists_eq_succ_of_ne_zero (by omega : rem ≠ 0)
    obtain ⟨hreset0, m, hread0⟩ := hprev 0 (Nat.succ_pos j)
    rw [Nat.add_zero] at hreset0 hread0
    rw [scratchLoop, hreset0, hread0]
    have hrec := ih rem' (i + 1) (by omega)
      (fun k hk => by
        have h2 := hprev (k + 1) (by omega)
        have heq : i + 1 + k = i + (k + 1) := by omega
        rw [heq]
        exact h2)
      (by
        have heq : i + 1 + j = i + (j + 1) := by omega
        rw [heq]
        exact hreset)
      (by
        have heq : i + 1 + j = i + (j + 1) := by omega
        rw [heq]
        exact hread)
    simp only [hrec]

/-- C8: `get_temperature` issues the conversion once and retries only the
Read Scratchpad stage, only on `CRCError`, up to `max(attempts, 1)` tries
(any requested count at or below 1 behaves as 1); a non-CRC protocol error at
any attempt stops the retrying immediately; after exhausting the attempts the
internal `CRCError('read_scratchpad: CRC error')` arises; and every
`OneWireException` kind — wherever it occurs — is caught, reported with the
device identity and message, and turned into an absent (`none`) result. -/
theorem get_temperature_retry_semantics :
    (∀ (rom : List Nat) (attempts : Int) (reset0 conv : Except OWError Unit)
        (resetStep : Nat → Except OWError Unit)
        (readStep : Nat → Except OWError (List Nat)) (calcT : List Nat → ℚ),
      (get_temperature rom attempts reset0 conv resetStep readStep
          calcT).reads ≤ (if attempts > 1 then attempts else 1).toNat ∧
      (get_temperature rom attempts reset0 conv resetStep readStep
          calcT).converts ≤ 1 ∧
      (attempts ≤ 1 → (if attempts > 1 then attempts else 1) = 1)) ∧
    (∀ (rom : List Nat) (attempts : Int)
        (resetStep : Nat → Except OWError Unit)
        (readStep : Nat → Except OWError (List Nat)) (calcT : List Nat → ℚ)
        (s : List Nat) (j : Nat),
      j < (if attempts > 1 then attempts else 1).toNat →
      (∀ k, k < j → resetStep k = .ok () ∧
        ∃ m, readStep k = .error (.crc m)) →
      resetStep j = .ok () → readStep j = .ok s →
      get_temperature rom attempts (.ok ()) (.ok ()) resetStep readStep
        calcT = ⟨some (calcT s), none, 1, j + 1⟩) ∧
    (∀ (rom : List Nat) (attempts : Int)
        (resetStep : Nat → Except OWError Unit)
        (readStep : Nat → Except OWError (List Nat)) (calcT : List Nat → ℚ)
        (e : OWError) (j : Nat),
      j < (if attempts > 1 then attempts else 1).toNat →
      (∀ k, k < j → resetStep k = .ok () ∧
        ∃ m, readStep k = .error (.crc m)) →
      resetStep j = .ok () → readStep j = .error e → (∀ m, e ≠ .crc m) →
      get_temperature rom attempts (.ok ()) (.ok ()) resetStep readStep
        calcT = ⟨none, some (errReport rom e), 1, j + 1⟩) ∧
    (∀ (rom : List Nat) (attempts : Int)
        (resetStep : Nat → Except OWError Unit)
        (readStep : Nat → Except OWError (List Nat)) (calcT : List Nat → ℚ),
      (∀ k, k < (if attempts > 1 then attempts else 1).toNat →
        resetStep k = .ok () ∧ ∃ m, readStep k = .error (.crc m)) →
      get_temperature rom attempts (.ok ()) (.ok ()) resetStep readStep
        calcT = ⟨none, some (errReport rom (.crc "read_scratchpad: CRC error")),
          1, (if attempts > 1 then attempts else 1).toNat⟩) ∧
    (∀ (rom : List Nat) (attempts : Int) (e : OWError)
        (conv : Except OWError Unit)
        (resetStep : Nat → Except OWError Unit)
        (readStep : Nat → Except OWError (List Nat)) (calcT : List Nat → ℚ),
      get_temperature rom attempts (.error e) conv resetStep readStep calcT =
        ⟨none, some (errReport rom e), 0, 0⟩ ∧
      get_temperature rom attempts (.ok ()) (.error e) resetStep readStep
        calcT = ⟨none, some (errReport rom e), 1, 0⟩) := by
  refine ⟨?_, ?_, ?_, ?_, ?_⟩
  · intro rom attempts reset0 conv resetStep readStep calcT
    refine ⟨?_, ?_, fun h => by rw [if_neg (by omega)]⟩
    · rw [get_temperature.eq_def]
      rcases reset0 with e | u
      · simp
      · rcases conv with e | u
        · simp
        · simp only [gt_iff_lt]
          have hle := scratchLoop_reads_le resetStep readStep
            (if 1 < attempts then attempts else 1).toNat 0
          rcases hlr : (scratchLoop resetStep readStep 0
              (if 1 < attempts then attempts else 1).toNat).1 with e | s <;>
            simp only [hlr] <;> exact hle
    · rw [get_temperature.eq_def]
      rcases reset0 with e | u
      · simp
      · rcases conv with e | u
        · simp
        · simp only [gt_iff_lt]
          rcases hlr : (scratchLoop resetStep readStep 0
              (if 1 < attempts then attempts else 1).toNat).1 with e | s <;>
            simp [hlr]
  · intro rom attempts resetStep readStep calcT s j hj hprev hreset hread
    have hloop := scratchLoop_success resetStep readStep s j
      (if attempts > 1 then attempts else 1).toNat 0 hj
      (fun k hk => by simpa using hprev k hk)
      (by simpa using hreset) (by simpa using hread)
    rw [get_temperature.eq_def]
    simp only [gt_iff_lt] at hloop ⊢
    simp only [hloop]
  · intro rom attempts resetStep readStep calcT e j hj hprev hreset hread hnc
    have hloop := scratchLoop_fatal resetStep readStep e hnc j
      (if attempts > 1 then attempts else 1).toNat 0 hj
      (fun k hk => by simpa using hprev k hk)
      (by simpa using hreset) (by simpa using hread)
    rw [get_temperature.eq_def]
    simp only [gt_iff_lt] at hloop ⊢
    simp only [hloop]
  · intro rom attempts resetStep readStep calcT hall
    have hloop := scratchLoop_all_crc resetStep readStep
      (if attempts > 1 then attempts else 1).toNat 0
      (fun k hk => by simpa using hall k hk)
    rw [get_temperature.eq_def]
    simp only [gt_iff_lt] at hloop ⊢
    simp only [hloop]
  · intro rom attempts e conv resetStep readStep calcT
    exact ⟨rfl, rfl⟩

/-- Witness instantiating `get_temperature_retry_semantics`: one CRC failure
then success (two reads), a non-CRC failure on the second attempt (stops with
two reads), full CRC exhaustion with `attempts = 2`, and an outer selection
failure. -/
theorem get_temperature_retry_semantics_witness :
    ((get_temperature [0x10] 3 (.ok ()) (.ok ()) (fun _ => .ok ())
        (fun k => if k = 0 then .error (.crc "crc1") else .ok [1])
        (fun _ => 0)).reads ≤
      (if (3 : Int) > 1 then (3 : Int) else (1 : Int)).toNat) ∧
    get_temperature [0x10] 3 (.ok ()) (.ok ()) (fun _ => .ok ())
        (fun k => if k = 0 then .error (.crc "crc1") else .ok [1])
        (fun _ => 0) = ⟨some 0, none, 1, 2⟩ ∧
    get_temperature [0x10] 3 (.ok ()) (.ok ()) (fun _ => .ok ())
        (fun k => if k = 0 then .error (.crc "crc1")
          else .error (.adapter "Read error"))
        (fun _ => 0) =
      ⟨none, some (errReport [0x10] (.adapter "Read error")), 1, 2⟩ ∧
    get_temperature [0x10] 2 (.ok ()) (.ok ()) (fun _ => .ok ())
        (fun _ => .error (.crc "crc1")) (fun _ => 0) =
      ⟨none, some (errReport [0x10] (.crc "read_scratchpad: CRC error")),
        1, 2⟩ ∧
    get_temperature [0x10] 3 (.error (.device "open failed")) (.ok ())
        (fun _ => .ok ()) (fun _ => .ok [1]) (fun _ => 0) =
      ⟨none, some (errReport [0x10] (.device "open failed")), 0, 0⟩ :=
  ⟨(get_temperature_retry_semantics.1 [0x10] 3 (.ok ()) (.ok ())
      (fun _ => .ok ())
      (fun k => if k = 0 then .error (.crc "crc1") else .ok [1])
      (fun _ => 0)).1,
   get_temperature_retry_semantics.2.1 [0x10] 3 (fun _ => .ok ())
     (fun k => if k = 0 then .error (.crc "crc1") else .ok [1]) (fun _ => 0)
     [1] 1 (by decide)
     (fun k hk => by interval_cases k; exact ⟨rfl, "crc1", rfl⟩) rfl rfl,
   get_temperature_retry_semantics.2.2.1 [0x10] 3 (fun _ => .ok ())
     (fun k => if k = 0 then .error (.crc "crc1")
       else .error (.adapter "Read error")) (fun _ => 0)
     (.adapter "Read error") 1 (by decide)
     (fun k hk => by interval_cases k; exact ⟨rfl, "crc1", rfl⟩) rfl rfl
     (fun m h => OWError.noConfusion h),
   get_temperature_retry_semantics.2.2.2.1 [0x10] 2 (fun _ => .ok ())
     (fun _ => .error (.crc "crc1")) (fun _ => 0)
     (fun k hk => ⟨rfl, "crc1", rfl⟩),
   (get_temperature_retry_semantics.2.2.2.2 [0x10] 3 (.device "open failed")
     (.ok ()) (fun _ => .ok ()) (fun _ => .ok [1]) (fun _ => 0)).1⟩

/-! ## C10 : multidrop sensor construction -/

/-- C10: constructing a sensor handle with an explicitly supplied ROM string
first verifies presence through the `is_connected` walk; when the walk
reports the device absent the constructor raises `DeviceError` naming the
ROM, and when it reports it present the handle carries `rom_code =
str_to_rom(rom)`, `single_mode = False`, a parasitic flag equal to the single
Read Power Supply bit being 0, and exactly one 0xB4 (Read Power Supply)
command is issued. -/
theorem sensor_init_multidrop (devs : List (List Nat)) (romStr : String)
    (rc : List Nat) (powerBit : Nat) (hrc : str2rom romStr = some rc) :
    (is_connected devs rc = .ok false →
      sensorInitMulti devs romStr powerBit =
        .error (.device ("Device with ROM code " ++ rom2str rc ++
          " not found"))) ∧
    (is_connected devs rc = .ok true →
      ∃ h trace, sensorInitMulti devs romStr powerBit = .ok (h, trace) ∧
        h.rom_code = rc ∧ h.single_mode = false ∧
        (h.parasitic = true ↔ powerBit = 0) ∧
        trace.count 0xb4 = 1) := by
  constructor
  · intro hic
    unfold sensorInitMulti
    rw [hrc]
    show (match is_connected devs rc with
      | .error e => Except.error e
      | .ok false =>
        .error (.device ("Device with ROM code " ++ rom2str rc ++
          " not found"))
      | .ok true =>
        if devs.isEmpty then .error (.adapter "No 1-wire device present")
        else
          .ok ((⟨rc, false, powerBit == 0⟩ : SensorHandle), [0xf0, 0x55, 0xb4])) = _
    rw [hic]
  · intro hic
    have hne : devs.isEmpty = false := by
      cases devs with
      | nil =>
        unfold is_connected at hic
        simp at hic
      | cons a as => rfl
    refine ⟨⟨rc, false, powerBit == 0⟩, [0xf0, 0x55, 0xb4], ?_, rfl, rfl,
      by simp, by decide⟩
    unfold sensorInitMulti
    rw [hrc]
    show (match is_connected devs rc with
      | .error e => Except.error e
      | .ok false =>
        .error (.device ("Device with ROM code " ++ rom2str rc ++
          " not found"))
      | .ok true =>
        if devs.isEmpty then .error (.adapter "No 1-wire device present")
        else
          .ok ((⟨rc, false, powerBit == 0⟩ : SensorHandle), [0xf0, 0x55, 0xb4])) = _
    rw [hic, hne]
    rfl

set_option maxRecDepth 1000000 in
/-- Witness instantiating `sensor_init_multidrop` on the sample ROM: a bus
carrying the device (construction succeeds) and a bus carrying only a
different device (construction fails with the naming `DeviceError`). -/
theorem sensor_init_multidrop_witness :
    (∃ h trace, sensorInitMulti
        [rom2bitsCore [0x10, 0xa7, 0x5c, 0xa8, 0x02, 0x08, 0x00, 0x1a]]
        "10A75CA80208001A" 0 = .ok (h, trace) ∧
      h.rom_code = [0x10, 0xa7, 0x5c, 0xa8, 0x02, 0x08, 0x00, 0x1a] ∧
      h.single_mode = false ∧ (h.parasitic = true ↔ (0 : Nat) = 0) ∧
      trace.count 0xb4 = 1) ∧
    sensorInitMulti
        [rom2bitsCore [0x28, 0x01, 0x02, 0x03, 0x04, 0x05, 0x06, 0x9f]]
        "10A75CA80208001A" 1 =
      .error (.device ("Device with ROM code " ++
        rom2str [0x10, 0xa7, 0x5c, 0xa8, 0x02, 0x08, 0x00, 0x1a] ++
          " not found")) :=
  ⟨(sensor_init_multidrop
      [rom2bitsCore [0x10, 0xa7, 0x5c, 0xa8, 0x02, 0x08, 0x00, 0x1a]]
      "10A75CA80208001A" [0x10, 0xa7, 0x5c, 0xa8, 0x02, 0x08, 0x00, 0x1a] 0
      (by decide)).2 (by decide),
   (sensor_init_multidrop
      [rom2bitsCore [0x28, 0x01, 0x02, 0x03, 0x04, 0x05, 0x06, 0x9f]]
      "10A75CA80208001A" [0x10, 0xa7, 0x5c, 0xa8, 0x02, 0x08, 0x00, 0x1a] 1
      (by decide)).1 (by decide)⟩

/-! ## C2 : reset / presence detect -/

/-- C2 counterexample: when the one-byte read-back fails (short read), the
code raises `AdapterError('Read/Write error')` while the baud rate is still
9600 — it is not switched back to 115200 as the claim states. -/
theorem reset_keeps_9600_on_short_read :
    (uartReset none ⟨115200⟩).1.baudrate = 9600 ∧
    ¬ (uartReset none ⟨115200⟩).1.baudrate = 115200 ∧
    (uartReset none ⟨115200⟩).2 = .error (.adapter "Read/Write error") :=
  ⟨rfl, by decide, rfl⟩

/-- C2 (amended): when the one-byte read-back succeeds with byte `d`, the
baud rate is switched back to 115200 before `d` is interpreted, and then
`d = 0xF0` fails with `AdapterError` (no device present), `0x10 ≤ d ≤ 0xE0`
succeeds, and any other value fails with `AdapterError` reporting a presence
error containing the value; when the read-back fails (short read) the code
raises `AdapterError('Read/Write error')` with the baud rate left at 9600. -/
theorem reset_restores_baud_and_classifies (resp : Option Nat) (u : UartState) :
    (resp = none →
      (uartReset resp u).1.baudrate = 9600 ∧
      (uartReset resp u).2 = .error (.adapter "Read/Write error")) ∧
    (∀ d, resp = some d →
      (uartReset resp u).1.baudrate = 115200 ∧
      (d = 0xf0 →
        (uartReset resp u).2 =
          .error (.adapter "No 1-wire device present")) ∧
      (0x10 ≤ d → d ≤ 0xe0 → (uartReset resp u).2 = .ok ()) ∧
      (d ≠ 0xf0 → ¬ (0x10 ≤ d ∧ d ≤ 0xe0) →
        (uartReset resp u).2 =
          .error (.adapter ("Presence error: 0x" ++ String.mk (byteHexL d))))) := by
  constructor
  · rintro rfl
    exact ⟨rfl, rfl⟩
  · rintro d rfl
    by_cases hf : d = 0xf0
    · subst hf
      exact ⟨rfl, fun _ => rfl, fun h1 h2 => by omega, fun hne _ => absurd rfl hne⟩
    · by_cases hin : 0x10 ≤ d ∧ d ≤ 0xe0
      · refine ⟨?_, ?_, ?_, ?_⟩
        · simp [uartReset, hf, hin]
        · intro h; exact absurd h hf
        · intro h1 h2
          simp [uartReset, hf, hin]
        · intro _ hcontra
          exact absurd hin hcontra
      · refine ⟨?_, ?_, ?_, ?_⟩
        · simp [uartReset, hf, hin]
        · intro h; exact absurd h hf
        · intro h1 h2
          exact absurd ⟨h1, h2⟩ hin
        · intro _ _
          simp [uartReset, hf, hin]

/-- Witness instantiating `reset_restores_baud_and_classifies` on a short
read, the no-presence byte 0xF0, a valid presence byte 0x8C, and the
out-of-range byte 0x05. -/
theorem reset_restores_baud_and_classifies_witness :
    ((uartReset none ⟨115200⟩).1.baudrate = 9600 ∧
      (uartReset none ⟨115200⟩).2 = .error (.adapter "Read/Write error")) ∧
    (uartReset (some 0xf0) ⟨115200⟩).2 =
      .error (.adapter "No 1-wire device present") ∧
    (uartReset (some 0x8c) ⟨115200⟩).1.baudrate = 115200 ∧
    (uartReset (some 0x8c) ⟨115200⟩).2 = .ok () ∧
    (uartReset (some 0x05) ⟨115200⟩).2 =
      .error (.adapter ("Presence error: 0x" ++ String.mk (byteHexL 0x05))) :=
  ⟨(reset_restores_baud_and_classifies none ⟨115200⟩).1 rfl,
   ((reset_restores_baud_and_classifies (some 0xf0) ⟨115200⟩).2 0xf0
      rfl).2.1 rfl,
   ((reset_restores_baud_and_classifies (some 0x8c) ⟨115200⟩).2 0x8c rfl).1,
   ((reset_restores_baud_and_classifies (some 0x8c) ⟨115200⟩).2 0x8c
      rfl).2.2.1 (by decide) (by decide),
   ((reset_restores_baud_and_classifies (some 0x05) ⟨115200⟩).2 0x05
      rfl).2.2.2 (by decide) (by decide)⟩

/-! ## C1 groundwork : prefixes and the extender sets -/

theorem prefix_append_bit (p d : List Nat) (b : Nat) (h : p.length < d.length) :
    (p ++ [b]) <+: d ↔ p <+: d ∧ d.getD p.length 0 = b := by
  constructor
  · intro hpre
    obtain ⟨t, ht⟩ := hpre
    have hp : p <+: d := ⟨[b] ++ t, by rw [← List.append_assoc]; exact ht⟩
    refine ⟨hp, ?_⟩
    have h1 : d[p.length]? = some b := by
      rw [← ht, List.append_assoc, List.getElem?_append_right (le_refl p.length)]
      simp
    have h2 : d[p.length]? = some (d.getD p.length 0) := by
      rw [List.getD_eq_getElem d 0 h, List.getElem?_eq_getElem h]
    rw [h2] at h1
    exact Option.some_inj.mp h1
  · rintro ⟨⟨t, rfl⟩, hbit⟩
    have hlen : p.length < p.length + t.length := by
      simpa using h
    have hne : t ≠ [] := by
      rintro rfl
      simp at hlen
    obtain ⟨x, xs, rfl⟩ := List.exists_cons_of_ne_nil hne
    have h1 : (p ++ x :: xs)[p.length]? = some x := by
      rw [List.getElem?_append_right (le_refl p.length)]
      simp
    have h2 : (p ++ x :: xs)[p.length]? =
        some ((p ++ x :: xs).getD p.length 0) := by
      rw [List.getD_eq_getElem _ 0 h, List.getElem?_eq_getElem h]
    rw [h2] at h1
    have hx : x = b := by
      rw [← hbit]
      exact (Option.some_inj.mp h1).symm
    subst hx
    exact ⟨xs, by simp⟩

theorem extenders_nil (D : List (List Nat)) : extenders D [] = D := by
  unfold extenders
  rw [List.filter_eq_self]
  intro d _
  exact List.isPrefixOf_iff_prefix.mpr (List.nil_prefix)

theorem mem_extenders {D : List (List Nat)} {p d : List Nat} :
    d ∈ extenders D p ↔ d ∈ D ∧ p <+: d := by
  unfold extenders
  rw [List.mem_filter, List.isPrefixOf_iff_prefix]

theorem extenders_append_bit (D : List (List Nat))
    (HD : ∀ d ∈ D, d.length = 64) (p : List Nat) (hp : p.length < 64)
    (b : Nat) :
    extenders D (p ++ [b]) =
      (extenders D p).filter (fun d => d.getD p.length 0 == b) := by
  unfold extenders
  rw [List.filter_filter]
  apply List.filter_congr
  intro d hd
  have hlen : p.length < d.length := by rw [HD d hd]; exact hp
  have hiff := prefix_append_bit p d b hlen
  rw [Bool.eq_iff_iff]
  simp only [List.isPrefixOf_iff_prefix, Bool.and_eq_true, beq_iff_eq]
  constructor
  · intro h
    have h' := hiff.mp h
    tauto
  · intro h
    apply hiff.mpr
    tauto

theorem lineWrite_extenders (D : List (List Nat))
    (HD : ∀ d ∈ D, d.length = 64) (p : List Nat) (hp : p.length < 64)
    (b : Nat) :
    lineWrite (extenders D p) p.length b = extenders D (p ++ [b]) := by
  rw [extenders_append_bit D HD p hp b]
  rfl

theorem replayBits_extenders (D : List (List Nat))
    (HD : ∀ d ∈ D, d.length = 64) :
    ∀ (q p : List Nat), p.length + q.length ≤ 64 →
      replayBits (extenders D p) p.length q = extenders D (p ++ q) := by
  intro q
  induction q with
  | nil =>
    intro p _
    rw [replayBits, List.append_nil]
  | cons b bs ih =>
    intro p hlen
    rw [replayBits,
      lineWrite_extenders D HD p (by simp at hlen; omega) b]
    have hstep : (p ++ [b]).length = p.length + 1 := by simp
    rw [← hstep, ih (p ++ [b]) (by simp at hlen ⊢; omega)]
    simp

theorem byteBits_le_one : ∀ (n x : Nat), ∀ b ∈ byteBits n x, b ≤ 1 := by
  intro n
  induction n with
  | zero => intro x b hb; cases hb
  | succ n ih =>
    intro x b hb
    rcases List.mem_cons.mp hb with rfl | hb
    · omega
    · exact ih (x >>> 1) b hb

theorem rom2bitsCore_le_one (r : List Nat) :
    ∀ b ∈ rom2bitsCore r, b ≤ 1 := by
  intro b hb
  rw [rom2bitsCore, List.mem_flatMap] at hb
  obtain ⟨x, _, hbx⟩ := hb
  exact byteBits_le_one 8 x b hbx

theorem nodup_filter_beq_single (D : List (List Nat)) (p : List Nat)
    (hn : D.Nodup) (hp : p ∈ D) : D.filter (fun d => d == p) = [p] := by
  induction D with
  | nil => cases hp
  | cons x xs ih =>
    rcases List.mem_cons.mp hp with rfl | hmem
    · rw [List.filter_cons_of_pos (by simp)]
      have hnotin : p ∉ xs := (List.nodup_cons.mp hn).1
      have hnil : xs.filter (fun d => d == p) = [] := by
        rw [List.filter_eq_nil_iff]
        intro y hy
        simp only [beq_iff_eq]
        intro hcontra
        exact hnotin (hcontra ▸ hy)
      rw [hnil]
    · have hx : x ≠ p := by
        rintro rfl
        exact (List.nodup_cons.mp hn).1 hmem
      rw [List.filter_cons_of_neg (by simp [hx])]
      exact ih (List.nodup_cons.mp hn).2 hmem

theorem extenders_bit_zero_or_one (D : List (List Nat))
    (HD : ∀ d ∈ D, d.length = 64) (HB : ∀ d ∈ D, ∀ b ∈ d, b ≤ 1)
    (p : List Nat) (hp : p.length < 64) (d : List Nat)
    (hd : d ∈ extenders D p) :
    d.getD p.length 0 = 0 ∨ d.getD p.length 0 = 1 := by
  obtain ⟨hdD, _⟩ := mem_extenders.mp hd
  have hlen : p.length < d.length := by rw [HD d hdD]; exact hp
  have hmem : d.getD p.length 0 ∈ d := by
    rw [List.getD_eq_getElem d 0 hlen]
    exact List.getElem_mem hlen
  have := HB d hdD _ hmem
  omega

/-- Correctness of one full-search discovery walk from prefix `p`: with at
least one device extending `p`, the walk completes the unique device obtained
by taking the 0-branch at every collision, pushes one realized partial path
per collision, and the devices extending `p` are exactly the completed device
together with the devices extending the pushed paths (as a multiset). -/
theorem searchWalk_full (D : List (List Nat)) (HD : ∀ d ∈ D, d.length = 64)
    (HB : ∀ d ∈ D, ∀ b ∈ d, b ≤ 1) (ND : D.Nodup) :
    ∀ (n : Nat) (p : List Nat), p.length + n = 64 →
      extenders D p ≠ [] →
      ∃ c pushes,
        searchWalk false (extenders D p) p n = .ok (some c, pushes) ∧
        c ∈ D ∧ p <+: c ∧
        (∀ q ∈ pushes, extenders D q ≠ [] ∧ q.length ≤ 64) ∧
        extenders D p ~ c :: pushes.flatMap (fun q => extenders D q) := by
  intro n
  induction n with
  | zero =>
    intro p hlen hne
    have hpred : ∀ d ∈ D, (p.isPrefixOf d) = (d == p) := by
      intro d hd
      rw [Bool.eq_iff_iff]
      simp only [List.isPrefixOf_iff_prefix, beq_iff_eq]
      constructor
      · intro hpre
        exact (hpre.eq_of_length (by rw [HD d hd]; omega)).symm
      · rintro rfl
        exact List.prefix_refl d
    have hext : extenders D p = D.filter (fun d => d == p) :=
      List.filter_congr hpred
    have hpD : p ∈ D := by
      obtain ⟨d, hd⟩ := List.exists_mem_of_ne_nil _ hne
      rw [hext, List.mem_filter] at hd
      have : d = p := by simpa using hd.2
      exact this ▸ hd.1
    have hsingle : extenders D p = [p] := by
      rw [hext]
      exact nodup_filter_beq_single D p ND hpD
    refine ⟨p, [], ?_, hpD, List.prefix_refl p, by simp, ?_⟩
    · rw [searchWalk]
    · rw [hsingle]
      rfl
  | succ n ih =>
    intro p hlen hne
    have hp64 : p.length < 64 := by omega
    have hbit01 := extenders_bit_zero_or_one D HD HB p hp64
    by_cases hP1 : ∀ d ∈ extenders D p, d.getD p.length 0 = 1
    · -- all participating devices have bit 1: agreement on 1
      have hb1 : lineReadBit (extenders D p) p.length = 1 := by
        rw [lineReadBit, if_pos]
        rw [List.all_eq_true]
        intro d hd
        simpa using hP1 d hd
      have hb2 : lineReadCmp (extenders D p) p.length = 0 := by
        rw [lineReadCmp, if_neg]
        rw [List.all_eq_true]
        intro hall
        obtain ⟨d, hd⟩ := List.exists_mem_of_ne_nil _ hne
        have h0 : d.getD p.length 0 = 0 := by simpa using hall d hd
        have h1 := hP1 d hd
        omega
      have hsame : extenders D (p ++ [1]) = extenders D p := by
        rw [extenders_append_bit D HD p hp64 1, List.filter_eq_self]
        intro d hd
        simp only [beq_iff_eq]
        exact hP1 d hd
      obtain ⟨c, pushes, hwalk, hcD, hpre, hpushes, hperm⟩ :=
        ih (p ++ [1]) (by simp; omega) (by rw [hsame]; exact hne)
      refine ⟨c, pushes, ?_, hcD, ?_, hpushes, ?_⟩
      · rw [searchWalk]
        simp only [hb1, hb2]
        rw [if_pos (by omega : (1 : Nat) ≠ 0),
          lineWrite_extenders D HD p hp64 1]
        exact hwalk
      · exact (List.prefix_append p [1]).trans hpre
      · calc extenders D p = extenders D (p ++ [1]) := hsame.symm
          _ ~ _ := hperm
    · by_cases hP0 : ∀ d ∈ extenders D p, d.getD p.length 0 = 0
      · -- all participating devices have bit 0: agreement on 0
        have hb1 : lineReadBit (extenders D p) p.length = 0 := by
          rw [lineReadBit, if_neg]
          rw [List.all_eq_true]
          intro hall
          apply hP1
          intro d hd
          simpa using hall d hd
        have hb2 : lineReadCmp (extenders D p) p.length = 1 := by
          rw [lineReadCmp, if_pos]
          rw [List.all_eq_true]
          intro d hd
          simpa using hP0 d hd
        have hsame : extenders D (p ++ [0]) = extenders D p := by
          rw [extenders_append_bit D HD p hp64 0, List.filter_eq_self]
          intro d hd
          simp only [beq_iff_eq]
          exact hP0 d hd
        obtain ⟨c, pushes, hwalk, hcD, hpre, hpushes, hperm⟩ :=
          ih (p ++ [0]) (by simp; omega) (by rw [hsame]; exact hne)
        refine ⟨c, pushes, ?_, hcD, ?_, hpushes, ?_⟩
        · rw [searchWalk]
          simp only [hb1, hb2]
          rw [if_pos (by omega : (0 : Nat) ≠ 1),
            lineWrite_extenders D HD p hp64 0]
          exact hwalk
        · exact (List.prefix_append p [0]).trans hpre
        · calc extenders D p = extenders D (p ++ [0]) := hsame.symm
            _ ~ _ := hperm
      · -- genuine collision: both branches realized
        have hb1 : lineReadBit (extenders D p) p.length = 0 := by
          rw [lineReadBit, if_neg]
          rw [List.all_eq_true]
          intro hall
          apply hP1
          intro d hd
          simpa using hall d hd
        have hb2 : lineReadCmp (extenders D p) p.length = 0 := by
          rw [lineReadCmp, if_neg]
          rw [List.all_eq_true]
          intro hall
          apply hP0
          intro d hd
          simpa using hall d hd
        have hA0 : extenders D (p ++ [0]) ≠ [] := by
          push_neg at hP1
          obtain ⟨d, hd, hd1⟩ := hP1
          have h0 : d.getD p.length 0 = 0 := by
            rcases hbit01 d hd with h | h
            · exact h
            · exact absurd h hd1
          intro hniln
          have hdmem : d ∈ extenders D (p ++ [0]) := by
            rw [mem_extenders]
            obtain ⟨hdD, hdpre⟩ := mem_extenders.mp hd
            have hlend : p.length < d.length := by rw [HD d hdD]; omega
            exact ⟨hdD, (prefix_append_bit p d 0 hlend).mpr ⟨hdpre, h0⟩⟩
          rw [hniln] at hdmem
          cases hdmem
        have hA1 : extenders D (p ++ [1]) ≠ [] := by
          push_neg at hP0
          obtain ⟨d, hd, hd0⟩ := hP0
          have h1 : d.getD p.length 0 = 1 := by
            rcases hbit01 d hd with h | h
            · exact absurd h hd0
            · exact h
          intro hniln
          have hdmem : d ∈ extenders D (p ++ [1]) := by
            rw [mem_extenders]
            obtain ⟨hdD, hdpre⟩ := mem_extenders.mp hd
            have hlend : p.length < d.length := by rw [HD d hdD]; omega
            exact ⟨hdD, (prefix_append_bit p d 1 hlend).mpr ⟨hdpre, h1⟩⟩
          rw [hniln] at hdmem
          cases hdmem
        have hpart : extenders D (p ++ [0]) ++ extenders D (p ++ [1]) ~
            extenders D p := by
          have hfp := List.filter_append_perm
            (fun d => d.getD p.length 0 == 0) (extenders D p)
          have he0 : (extenders D p).filter (fun d => d.getD p.length 0 == 0) =
              extenders D (p ++ [0]) :=
            (extenders_append_bit D HD p hp64 0).symm
          have he1 : (extenders D p).filter
              (fun d => !(d.getD p.length 0 == 0)) =
              extenders D (p ++ [1]) := by
            rw [extenders_append_bit D HD p hp64 1]
            apply List.filter_congr
            intro d hd
            rcases hbit01 d hd with h | h <;> rw [h] <;> rfl
          rw [he0, he1] at hfp
          exact hfp
        obtain ⟨c, rest, hwalk, hcD, hpre, hpushes, hperm⟩ :=
          ih (p ++ [0]) (by simp; omega) hA0
        refine ⟨c, (p ++ [1]) :: rest, ?_, hcD, ?_, ?_, ?_⟩
        · rw [searchWalk]
          simp only [hb1, hb2, lineWrite_extenders D HD p hp64 0]
          norm_num
          rw [hwalk]
        · exact (List.prefix_append p [0]).trans hpre
        · intro q hq
          rcases List.mem_cons.mp hq with rfl | hq
          · exact ⟨hA1, by simp; omega⟩
          · exact hpushes q hq
        · have step1 : extenders D p ~
              extenders D (p ++ [0]) ++ extenders D (p ++ [1]) := hpart.symm
          have step2 : extenders D (p ++ [0]) ++ extenders D (p ++ [1]) ~
              (c :: rest.flatMap (fun q => extenders D q)) ++
                extenders D (p ++ [1]) :=
            hperm.append_right _
          have step3 : (c :: rest.flatMap (fun q => extenders D q)) ++
              extenders D (p ++ [1]) =
              c :: (rest.flatMap (fun q => extenders D q) ++
                extenders D (p ++ [1])) := rfl
          have step4 : c :: (rest.flatMap (fun q => extenders D q) ++
              extenders D (p ++ [1])) ~
              c :: (extenders D (p ++ [1]) ++
                rest.flatMap (fun q => extenders D q)) :=
            (List.perm_append_comm).cons c
          have step5 : c :: (extenders D (p ++ [1]) ++
              rest.flatMap (fun q => extenders D q)) =
              c :: ((p ++ [1]) :: rest).flatMap (fun q => extenders D q) := by
            rw [List.flatMap_cons]
          exact (((step1.trans step2).trans (step3 ▸ List.Perm.refl _)).trans
            step4).trans (step5 ▸ List.Perm.refl _)

/-! ## Search-loop step lemmas -/

theorem searchLoop_nil (devs resp : List (List Nat)) (alarm : Bool)
    (fuel : Nat) (acc : List (List Nat)) :
    searchLoop devs resp alarm (fuel + 1) [] acc = .ok acc := by
  rw [searchLoop]
  rfl

theorem searchLoop_step (devs resp : List (List Nat)) (alarm : Bool)
    (fuel : Nat) (work acc : List (List Nat)) (q : List Nat)
    (h : work.getLast? = some q) :
    searchLoop devs resp alarm (fuel + 1) work acc =
      match searchOne devs resp alarm q with
      | .error e => .error e
      | .ok (copt, pushes) =>
        match copt with
        | none => searchLoop devs resp alarm fuel (work.dropLast ++ pushes) acc
        | some c =>
          match bits2rom c with
          | some r =>
            searchLoop devs resp alarm fuel (work.dropLast ++ pushes)
              (acc ++ [r])
          | none => .error (.format "bits array length shall be 64") := by
  rw [searchLoop, h]

/-- Correctness of the full-search work-list loop: with every pending path
realized by at least one device and enough fuel, the loop returns the
accumulated ROMs followed by exactly the ROMs of the devices extending the
pending paths. -/
theorem searchLoop_full (D : List (List Nat)) (HD : ∀ d ∈ D, d.length = 64)
    (HB : ∀ d ∈ D, ∀ b ∈ d, b ≤ 1) (ND : D.Nodup) :
    ∀ (fuel : Nat) (work acc : List (List Nat)),
      (∀ q ∈ work, extenders D q ≠ [] ∧ q.length ≤ 64) →
      (work.map (fun q => (extenders D q).length)).sum + 1 ≤ fuel →
      ∃ res, searchLoop D D false fuel work acc = .ok (acc ++ res) ∧
        res ~ (work.flatMap (fun q => extenders D q)).map bits2romCore := by
  intro fuel
  induction fuel with
  | zero =>
    intro work acc _ hfuel
    omega
  | succ fuel ih =>
    intro work acc hinv hfuel
    match hwork : work.getLast? with
    | none =>
      have hnil : work = [] := List.getLast?_eq_none_iff.mp hwork
      subst hnil
      exact ⟨[], by rw [searchLoop_nil, List.append_nil], by rfl⟩
    | some q =>
      have hqmem : q ∈ work := mem_of_mem_getLast? hwork
      obtain ⟨hqne, hq64⟩ := hinv q hqmem
      have hDne : D ≠ [] := by
        rintro rfl
        exact hqne rfl
      have hDempty : D.isEmpty = false := by
        cases D with
        | nil => exact absurd rfl hDne
        | cons x xs => rfl
      have hreplay : replayBits D 0 q = extenders D q := by
        have h0 : replayBits (extenders D ([] : List Nat)) ([] : List Nat).length q =
            extenders D ([] ++ q) :=
          replayBits_extenders D HD q [] (by simpa using hq64)
        rw [extenders_nil] at h0
        simpa using h0
      obtain ⟨c, pushes, hwalk, hcD, hqc, hpushes, hperm⟩ :=
        searchWalk_full D HD HB ND (64 - q.length) q (by omega) hqne
      have hone : searchOne D D false q = .ok (some c, pushes) := by
        rw [searchOne, if_neg (by rw [hDempty]; exact Bool.false_ne_true),
          hreplay]
        exact hwalk
      have hc64 : c.length = 64 := HD c hcD
      have hbits : bits2rom c = some (bits2romCore c) := by
        rw [bits2rom, if_neg (by omega)]
      have hdecomp : work.dropLast ++ [q] = work :=
        dropLast_append_getLast? q hwork
      have hinv' : ∀ q' ∈ work.dropLast ++ pushes,
          extenders D q' ≠ [] ∧ q'.length ≤ 64 := by
        intro q' hq'
        rcases List.mem_append.mp hq' with h | h
        · exact hinv q' (mem_of_mem_dropLast h)
        · exact hpushes q' h
      have hlenq : (extenders D q).length =
          1 + ((pushes.map (fun q' => (extenders D q').length)).sum) := by
        rw [hperm.length_eq]
        simp [List.length_flatMap, Function.comp_def]
        omega
      have hsum : (work.map (fun q' => (extenders D q').length)).sum =
          ((work.dropLast.map (fun q' => (extenders D q').length)).sum) +
            (extenders D q).length := by
        conv_lhs => rw [← hdecomp]
        simp
      have hfuel' :
          (((work.dropLast ++ pushes).map
            (fun q' => (extenders D q').length)).sum) + 1 ≤ fuel := by
        rw [List.map_append, List.sum_append]
        rw [hsum, hlenq] at hfuel
        omega
      obtain ⟨res, hres, hresperm⟩ :=
        ih (work.dropLast ++ pushes) (acc ++ [bits2romCore c]) hinv' hfuel'
      refine ⟨bits2romCore c :: res, ?_, ?_⟩
      · rw [searchLoop_step D D false fuel work acc q hwork, hone]
        show (match bits2rom c with
          | some r =>
            searchLoop D D false fuel (work.dropLast ++ pushes) (acc ++ [r])
          | none =>
            .error (.format "bits array length shall be 64")) = _
        rw [hbits]
        show searchLoop D D false fuel (work.dropLast ++ pushes)
          (acc ++ [bits2romCore c]) = _
        rw [hres, List.append_assoc]
        rfl
      · have hgoal : (work.flatMap (fun q' => extenders D q')).map
            bits2romCore =
            (work.dropLast.flatMap (fun q' => extenders D q')).map
              bits2romCore ++ (extenders D q).map bits2romCore := by
          conv_lhs => rw [← hdecomp]
          simp
        rw [hgoal]
        have hres2 : res ~
            (work.dropLast.flatMap (fun q' => extenders D q')).map
              bits2romCore ++
              (pushes.flatMap (fun q' => extenders D q')).map bits2romCore := by
          have := hresperm
          rw [List.flatMap_append, List.map_append] at this
          exact this
        have hqmap : (extenders D q).map bits2romCore ~
            bits2romCore c ::
              (pushes.flatMap (fun q' => extenders D q')).map bits2romCore := by
          have := hperm.map bits2romCore
          simpa using this
        calc bits2romCore c :: res
            ~ bits2romCore c ::
                ((work.dropLast.flatMap (fun q' => extenders D q')).map
                  bits2romCore ++
                 (pushes.flatMap (fun q' => extenders D q')).map
                  bits2romCore) := hres2.cons _
          _ ~ (work.dropLast.flatMap (fun q' => extenders D q')).map
                bits2romCore ++
                (bits2romCore c ::
                  (pushes.flatMap (fun q' => extenders D q')).map
                    bits2romCore) := List.perm_middle.symm
          _ ~ (work.dropLast.flatMap (fun q' => extenders D q')).map
                bits2romCore ++ (extenders D q).map bits2romCore :=
              List.Perm.append_left _ hqmap.symm

/-- C1: on a simulated bus carrying two or more devices with distinct valid
8-byte ROM codes, the full search (`search_ROM(alarm=False)`) succeeds and
returns exactly that set of ROM codes — a permutation of the device list, so
no duplicates and no omissions — whatever pattern of bit collisions the walk
meets. -/
theorem search_ROM_finds_all_devices (roms : List (List Nat))
    (h8 : ∀ r ∈ roms, r.length = 8)
    (hbytes : ∀ r ∈ roms, ∀ b ∈ r, b < 256)
    (hnd : roms.Nodup) (h2 : 2 ≤ roms.length) :
    ∃ res, search_ROM (roms.map rom2bitsCore) [] false = .ok res ∧
      res ~ roms := by
  have HD : ∀ d ∈ roms.map rom2bitsCore, d.length = 64 := by
    intro d hd
    obtain ⟨r, hr, rfl⟩ := List.mem_map.mp hd
    rw [rom2bitsCore_length, h8 r hr]
  have HB : ∀ d ∈ roms.map rom2bitsCore, ∀ b ∈ d, b ≤ 1 := by
    intro d hd
    obtain ⟨r, _, rfl⟩ := List.mem_map.mp hd
    exact rom2bitsCore_le_one r
  have ND : (roms.map rom2bitsCore).Nodup := by
    apply (List.nodup_map_iff_inj_on hnd).mpr
    intro x hx y hy hxy
    calc x = bits2romCore (rom2bitsCore x) :=
          (bits2romCore_rom2bitsCore x (hbytes x hx)).symm
      _ = bits2romCore (rom2bitsCore y) := by rw [hxy]
      _ = y := bits2romCore_rom2bitsCore y (hbytes y hy)
  have hDne : roms.map rom2bitsCore ≠ [] := by
    intro h
    have hlen := congrArg List.length h
    rw [List.length_map] at hlen
    simp only [List.length_nil] at hlen
    omega
  obtain ⟨res, hres, hperm⟩ :=
    searchLoop_full (roms.map rom2bitsCore) HD HB ND
      ((roms.map rom2bitsCore).length + 2) [[]] []
      (by
        intro q hq
        have hq' : q = [] := by simpa using hq
        subst hq'
        rw [extenders_nil]
        exact ⟨hDne, by simp⟩)
      (by
        simp only [List.map_cons, List.map_nil, List.sum_cons, List.sum_nil,
          extenders_nil]
        omega)
  refine ⟨res, ?_, ?_⟩
  · show searchLoop (roms.map rom2bitsCore) (roms.map rom2bitsCore) false
      ((roms.map rom2bitsCore).length + 2) [[]] [] = .ok res
    rw [hres]
    simp
  · have hflat : (([[]] : List (List Nat)).flatMap
        (fun q => extenders (roms.map rom2bitsCore) q)) =
        roms.map rom2bitsCore := by
      simp [extenders_nil]
    rw [hflat] at hperm
    have hcollapse : (roms.map rom2bitsCore).map bits2romCore = roms := by
      rw [List.map_map]
      have : ∀ r ∈ roms, (bits2romCore ∘ rom2bitsCore) r = id r := by
        intro r hr
        show bits2romCore (rom2bitsCore r) = r
        exact bits2romCore_rom2bitsCore r (hbytes r hr)
      rw [List.map_congr_left this, List.map_id]
    rw [hcollapse] at hperm
    exact hperm

/-- Witness instantiating `search_ROM_finds_all_devices` with the two-device
bus of the repository's sample ROMs. -/
theorem search_ROM_finds_all_devices_witness :
    ∃ res, search_ROM
      ([[0x10, 0xa7, 0x5c, 0xa8, 0x02, 0x08, 0x00, 0x1a],
        [0x28, 0x01, 0x02, 0x03, 0x04, 0x05, 0x06, 0x9f]].map rom2bitsCore)
      [] false = .ok res ∧
      res ~ [[0x10, 0xa7, 0x5c, 0xa8, 0x02, 0x08, 0x00, 0x1a],
        [0x28, 0x01, 0x02, 0x03, 0x04, 0x05, 0x06, 0x9f]] :=
  search_ROM_finds_all_devices _ (by decide) (by decide) (by decide) (by decide)

/-! ## C7 : the double-one asymmetry between alarm and full search -/

/-- C7: reading `b1 = b2 = 1` at a bit position (which happens exactly when no
device is still participating) makes the alarm-mode walk return silently with
no completed path and nothing pushed, while the full-search walk raises
`AdapterError`; consequently an alarm search on a (non-empty) bus with zero
alarming devices returns the empty list without error. -/
theorem alarm_double_one_semantics :
    (∀ (p : List Nat) (n : Nat),
      searchWalk true [] p (n + 1) = .ok (none, []) ∧
      searchWalk false [] p (n + 1) =
        .error (.adapter "Search command got wrong bits (two sequential 0b1)")) ∧
    (∀ devs : List (List Nat), devs ≠ [] →
      search_ROM devs [] true = .ok []) := by
  have hwalk : ∀ (p : List Nat) (n : Nat) (alarm : Bool),
      searchWalk alarm [] p (n + 1) =
        if alarm then .ok (none, [])
        else .error (.adapter "Search command got wrong bits (two sequential 0b1)") := by
    intro p n alarm
    rw [searchWalk]
    simp [lineReadBit, lineReadCmp]
  refine ⟨fun p n => ⟨by rw [hwalk]; rfl, by rw [hwalk]; rfl⟩, ?_⟩
  intro devs hne
  show searchLoop devs [] true 2 [[]] [] = .ok []
  have hone : searchOne devs [] true [] = .ok (none, []) := by
    rw [searchOne, if_neg (by simp [hne])]
    show searchWalk true [] [] (63 + 1) = _
    rw [hwalk]
    rfl
  rw [searchLoop_step devs [] true 1 [[]] [] [] rfl, hone]
  show searchLoop devs [] true 1 [] [] = .ok []
  exact searchLoop_nil devs [] true 0 []

/-- Witness instantiating `alarm_double_one_semantics` at a one-device bus. -/
theorem alarm_double_one_semantics_witness :
    (searchWalk true [] [] 1 = .ok (none, []) ∧
      searchWalk false [] [] 1 =
        .error (.adapter "Search command got wrong bits (two sequential 0b1)")) ∧
    search_ROM [rom2bitsCore [0x10, 0xa7, 0x5c, 0xa8, 0x02, 0x08, 0x00, 0x1a]]
      [] true = .ok [] :=
  ⟨alarm_double_one_semantics.1 [] 0,
   alarm_double_one_semantics.2 _ (by simp [rom2bitsCore])⟩

end Digitemp
